import Mathlib

/-!
Verification of the `paper-ecg` digitization pipeline.

This file gives a shallow embedding, in Lean 4, of the parts of the
repository that the checked claims are about:

* `ecgdigitize/signal/extraction/viterbi.py` — candidate-point detection
  (`findContiguousRegions`, `findContiguousRegionCenters`,
  `getPointLocations`), the cost function (`score`, `angleFromOffsets`, …)
  and the Viterbi extraction (`extractSignal`).
* `ecgdigitize/common.py` — `shiftedPairs`, `autocorrelation`, `padLeft`,
  `padRight`, `mean`, `mode`, `lowerClamp`.
* `ecgdigitize/otsu.py` — `otsuThreshold` and `climb1dHill`.
* `ecgdigitize/signal/signal.py` — `verticallyScaleECGSignal`,
  `ecgSignalSamplingPeriod`, `zeroECGSignal`.
* `Conversion.py` — `convertECGLeads`.

Machine floats are embedded as exact rationals (ℚ); float NaN is embedded
as `none` in `Option ℚ`.  Python exceptions are embedded as
`Except.error`.  Python `None` results are embedded as `Option.none` in
the relevant result types.  Transcendental arithmetic (`sqrt`, `asin`)
is embedded over ℝ.  Library calls whose numeric output the claims never
inspect (`np.corrcoef`) are taken as parameters.
-/

/-- Decidable equality of embedded call results. -/
instance {ε α : Type} [DecidableEq ε] [DecidableEq α] : DecidableEq (Except ε α) :=
  fun x y =>
    match x, y with
    | .ok a, .ok b =>
      if h : a = b then .isTrue (by rw [h]) else .isFalse (fun hc => h (Except.ok.inj hc))
    | .error a, .error b =>
      if h : a = b then .isTrue (by rw [h]) else .isFalse (fun hc => h (Except.error.inj hc))
    | .ok _, .error _ => .isFalse (fun hc => Except.noConfusion hc)
    | .error _, .ok _ => .isFalse (fun hc => Except.noConfusion hc)

namespace PaperECG

/-- Python `int(q)` on a rational: truncation toward zero. -/
def pyTrunc (q : ℚ) : ℤ := if 0 ≤ q then ⌊q⌋ else -⌊-q⌋

/-- Python `round(q)` on a rational: round half to even (banker's rounding). -/
def pyRound (q : ℚ) : ℤ :=
  let f := ⌊q⌋
  let frac := q - f
  if frac < 1/2 then f
  else if 1/2 < frac then f + 1
  else if 2 ∣ f then f else f + 1

/-- Python slice `l[a:b]` with possibly negative bounds (they wrap once
around the end of the list, then clamp). -/
def pySlice {α : Type} (l : List α) (a b : ℤ) : List α :=
  let n : ℤ := l.length
  let a' : ℤ := if a < 0 then max (n + a) 0 else min a n
  let b' : ℤ := if b < 0 then max (n + b) 0 else min b n
  (l.take b'.toNat).drop a'.toNat

/-- Python indexed read `l[i]` (negative index wraps; out of bounds raises
`IndexError`). -/
def pyGet {α : Type} (l : List α) (i : ℤ) : Except String α :=
  let n : ℤ := l.length
  let j : ℤ := if i < 0 then i + n else i
  if h : 0 ≤ j ∧ j < n then
    .ok (l.get ⟨j.toNat, by omega⟩)
  else .error "IndexError"

/-- Python indexed write `l[i] = v` (negative index wraps; out of bounds
raises `IndexError`). -/
def pySet {α : Type} (l : List α) (i : ℤ) (v : α) : Except String (List α) :=
  let n : ℤ := l.length
  let j : ℤ := if i < 0 then i + n else i
  if 0 ≤ j ∧ j < n then .ok (l.set j.toNat v) else .error "IndexError"

/-- `common.flatten`: flatten a list of lists. -/
def flattenL {α : Type} (l : List (List α)) : List α := l.flatten

/-- `common.lowerClamp(value, limit)`: `value if value > limit else limit`. -/
def lowerClamp (value limit : ℤ) : ℤ := if limit < value then value else limit

/-- `common.mean` (`np.mean`) on a list of rationals: sum divided by length. -/
def meanQ (l : List ℚ) : ℚ := l.sum / (l.length : ℚ)

end PaperECG

namespace PaperECG

/-! ## Candidate points (`viterbi.py`)

`findContiguousRegions` walks one column of pixels keeping an optional
run-start index; a pair `(start, index)` is appended when a zero pixel
closes an open run.  Note the source appends nothing when the column ends
while a run is still open. -/

/-- Loop body of `findContiguousRegions`: `index` is the position of the
head pixel, the `Option ℕ` is the `start` variable. -/
def findContiguousRegionsAux : List ℕ → ℕ → Option ℕ → List (ℕ × ℕ)
  | [], _, _ => []
  | pixel :: rest, index, none =>
      if 0 < pixel then findContiguousRegionsAux rest (index + 1) (some index)
      else findContiguousRegionsAux rest (index + 1) none
  | pixel :: rest, index, some s =>
      if pixel = 0 then (s, index) :: findContiguousRegionsAux rest (index + 1) none
      else findContiguousRegionsAux rest (index + 1) (some s)

/-- `viterbi.findContiguousRegions`. -/
def findContiguousRegions (oneDimImage : List ℕ) : List (ℕ × ℕ) :=
  findContiguousRegionsAux oneDimImage 0 none

/-- `viterbi.findContiguousRegionCenters`: `int(np.mean([start, end]))` of
each region, i.e. `(start + end) / 2` rounded down. -/
def findContiguousRegionCenters (oneDimImage : List ℕ) : List ℕ :=
  (findContiguousRegions oneDimImage).map (fun p => (p.1 + p.2) / 2)

/-- `viterbi.Point`: a point `(x, y)`; machine floats embedded as ℚ. -/
structure Point where
  x : ℚ
  y : ℚ
deriving DecidableEq, Repr

/-- `Point.index`: the x coordinate rounded to an integer (Python `round`,
the identity on ints). -/
def Point.index (p : Point) : ℤ := pyRound p.x

/-- Binary image contents: a list of rows of {0,1} pixels.  (`numpy`
arrays are rectangular; `width` is the length of the first row, and
column reads below default to 0 only where `numpy` could not have built
the array.) -/
def imgWidth (img : List (List ℕ)) : ℕ := (img.headD []).length

/-- Column `c` of the image (`np.swapaxes(image, 0, 1)`, one column). -/
def imgColumn (img : List (List ℕ)) (c : ℕ) : List ℕ :=
  img.map (fun row => row.getD c 0)

/-- `viterbi.getPointLocations`: per column, the centers of contiguous
pixel runs, as points `(column, row)`. -/
def getPointLocations (img : List (List ℕ)) : List (List Point) :=
  (List.range (imgWidth img)).map (fun column =>
    (findContiguousRegionCenters (imgColumn img column)).map
      (fun (row : ℕ) => ⟨(column : ℚ), (row : ℚ)⟩))

/-! ## `common.py`: shifted pairs, autocorrelation, mode, padding -/

/-- Python float division: `ZeroDivisionError` on a zero divisor. -/
def pyDiv (a b : ℚ) : Except String ℚ :=
  if b = 0 then .error "ZeroDivisionError" else .ok (a / b)

/-- `common.shiftedPairs`: pairs of the signal with itself shifted by
`offset = 0, 1, …, limit - 1`; the default limit is `len(signal) // 2`;
a larger explicit limit raises `ValueError`.  `signal[:-offset]` is the
first `len - offset` elements. -/
def shiftedPairs (signal : List ℚ) (limit : Option ℕ) :
    Except String (List (List ℚ × List ℚ)) :=
  let lim := limit.getD (signal.length / 2)
  if signal.length / 2 < lim then
    .error "ValueError"
  else
    .ok ((List.range lim).map (fun offset =>
      if offset = 0 then (signal, signal)
      else (signal.take (signal.length - offset), signal.drop offset)))

/-- `common.autocorrelation`, parametric in the correlation-coefficient
kernel (`np.corrcoef(x, y)[0][1]`, a library call whose numeric value the
claims never inspect). -/
def autocorrelation {α : Type} (corrcoef : List ℚ → List ℚ → α)
    (signal : List ℚ) (limit : Option ℕ) : Except String (List α) :=
  (shiftedPairs signal limit).map (fun pairs => pairs.map (fun p => corrcoef p.1 p.2))

/-- First element of maximal count (`Counter.most_common` keeps the first
seen among ties). -/
def firstMaxCount {α : Type} [DecidableEq α] (l : List α) : Option α :=
  l.foldl (fun acc a =>
    match acc with
    | none => some a
    | some b => if l.count b < l.count a then some a else some b) none

/-- `common.mode`: `Counter(data).most_common(1)[0]`; empty data raises
`IndexError`. -/
def pyMode {α : Type} [DecidableEq α] (l : List α) : Except String α :=
  match firstMaxCount l with
  | none => .error "IndexError"
  | some a => .ok a

/-- `common.padLeft` on an `np.ndarray` (`np.pad` raises `ValueError` on a
negative count); the fill value 0 becomes the sample `some 0`. -/
def padLeft (elements : List (Option ℚ)) (count : ℤ) :
    Except String (List (Option ℚ)) :=
  if count < 0 then .error "ValueError"
  else .ok (List.replicate count.toNat (some (0 : ℚ)) ++ elements)

/-- `common.padRight` on an `np.ndarray`. -/
def padRight (elements : List (Option ℚ)) (count : ℤ) :
    Except String (List (Option ℚ)) :=
  if count < 0 then .error "ValueError"
  else .ok (elements ++ List.replicate count.toNat (some (0 : ℚ)))

/-! ## `signal/signal.py`: scaling and sampling period

Signal samples are `Option ℚ`: `none` is the float NaN marker, and
arithmetic on samples propagates it as IEEE arithmetic does. -/

/-- NaN-propagating subtraction of a scalar sample. -/
def nanSub (v w : Option ℚ) : Option ℚ :=
  match v, w with
  | some a, some b => some (a - b)
  | _, _ => none

/-- NaN-propagating multiplication by a scalar. -/
def nanMul (v : Option ℚ) (c : ℚ) : Option ℚ := v.map (· * c)

/-- `signal.verticallyScaleECGSignal`: multiply every sample by
`(1/gridSizeInPixels) · gridSizeInMillimeters · (1/millimetersPerMilliVolt) · 1000`
and flip the sign. -/
def verticallyScaleECGSignal (signal : List (Option ℚ)) (gridSizeInPixels : ℚ)
    (millimetersPerMilliVolt : ℚ) (gridSizeInMillimeters : ℚ) :
    Except String (List (Option ℚ)) := do
  let gridsPerPixel ← pyDiv 1 gridSizeInPixels
  let millimetersPerGrid := gridSizeInMillimeters
  let milliVoltsPerMillimeter ← pyDiv 1 millimetersPerMilliVolt
  let microVoltsPerMilliVolt : ℚ := 1000
  let microVoltsPerPixel :=
    gridsPerPixel * millimetersPerGrid * milliVoltsPerMillimeter * microVoltsPerMilliVolt
  .ok (signal.map (fun v => nanMul (nanMul v microVoltsPerPixel) (-1)))

/-- `signal.ecgSignalSamplingPeriod`: seconds per pixel. -/
def ecgSignalSamplingPeriod (gridSizeInPixels : ℚ) (millimetersPerSecond : ℚ)
    (gridSizeInMillimeters : ℚ) : Except String ℚ := do
  let gridsPerPixel ← pyDiv 1 gridSizeInPixels
  let millimetersPerGrid := gridSizeInMillimeters
  let secondsPerMillimeter ← pyDiv 1 millimetersPerSecond
  .ok (gridsPerPixel * millimetersPerGrid * secondsPerMillimeter)

/-- `signal.zeroECGSignal` with the default zeroing method `common.mode`. -/
def zeroECGSignal (signal : List (Option ℚ)) : Except String (List (Option ℚ)) := do
  let zeroPoint ← pyMode signal
  .ok (signal.map (fun v => nanSub v zeroPoint))

/-! ## `otsu.py`: threshold and 1-D hill climb

`σ_B` values are `Option ℚ`: `none` embeds the float NaN produced by the
`0/0` at `ω(k) ∈ {0, 1}` (in exact arithmetic a zero denominator forces a
zero numerator, so no division ever yields an infinity).  The float `>`
on scores is `pyGtOpt`, false whenever either side is NaN. -/

/-- Python float `>` on possibly-NaN values. -/
def pyGtOpt : Option ℚ → Option ℚ → Bool
  | some a, some b => decide (b < a)
  | _, _ => false

/-- `np.histogram(data, 255, range=(0, 255))` on 8-bit pixels: 255 bins of
width 1; the last bin is closed, so it collects both 254 and 255. -/
def histogram255 (pixels : List ℕ) : List ℕ :=
  (List.range 255).map (fun i =>
    if i < 254 then pixels.count i
    else (pixels.filter (fun v => v = 254 ∨ v = 255)).length)

/-- `otsu.otsuThreshold`'s `ω(k)`: cumulative probability `sum(p[0:k])`. -/
def otsuOmega (p : List ℚ) (k : ℕ) : ℚ := (p.take k).sum

/-- `otsu.otsuThreshold`'s `μ(k)`: `sum((i+1) * p_i for i, p_i in enumerate(p[0:k]))`. -/
def otsuMu (p : List ℚ) (k : ℕ) : ℚ :=
  ((p.take k).enum.map (fun ip => ((ip.1 : ℚ) + 1) * ip.2)).sum

/-- `otsu.otsuThreshold`'s `σ_B(k)` (between-class variance); `none` is the
NaN produced when the denominator `ω(k)·(1-ω(k))` is zero. -/
def otsuSigmaB (p : List ℚ) (muT : ℚ) (k : ℕ) : Option ℚ :=
  let numerator := (muT * otsuOmega p k - otsuMu p k) ^ 2
  let denominator := otsuOmega p k * (1 - otsuOmega p k)
  if denominator = 0 then none else some (numerator / denominator)

/-- Loop of `otsu.climb1dHill`.  The Python loop is `while True`; each
move strictly increases the current score, so `xs.length + 1` rounds of
fuel always suffice, and running out is reported as an error. -/
def climbLoop (xs : List ℕ) (evaluate : ℕ → Option ℚ) :
    ℕ → ℕ → Option ℚ → Except String ℕ
  | 0, _, _ => .error "Nonterminating"
  | fuel + 1, currentIndex, currentScore =>
    let left : Option ℕ := if 0 < currentIndex then some (currentIndex - 1) else none
    let right : Option ℕ := if currentIndex < xs.length - 1 then some (currentIndex + 1) else none
    match left, right with
    | some l, some r =>
      let leftScore := evaluate (xs.getD l 0)
      let rightScore := evaluate (xs.getD r 0)
      if pyGtOpt leftScore currentScore then climbLoop xs evaluate fuel l leftScore
      else if pyGtOpt rightScore currentScore then climbLoop xs evaluate fuel r rightScore
      else .ok (xs.getD currentIndex 0)
    | _, _ => .error "NotImplementedError"

/-- `otsu.climb1dHill`: hill climb started at `xs[len(xs) // 2]`. -/
def climb1dHill (xs : List ℕ) (evaluate : ℕ → Option ℚ) : Except String ℕ :=
  let startIndex := xs.length / 2
  climbLoop xs evaluate (xs.length + 1) startIndex (evaluate (xs.getD startIndex 0))

/-- The probability histogram `p = n / N` of a grayscale image. -/
def otsuP (image : List (List ℕ)) : List ℚ :=
  let N : ℚ := ((image.length * imgWidth image : ℕ) : ℚ)
  (histogram255 (flattenL image)).map (fun c => (c : ℚ) / N)

/-- The score function `σ_B` evaluated by `otsu.otsuThreshold` on an image
(`μ_T = μ(L)` with `L = 256`). -/
def otsuEval (image : List (List ℕ)) : ℕ → Option ℚ :=
  fun k => otsuSigmaB (otsuP image) (otsuMu (otsuP image) 256) k

/-- `otsu.otsuThreshold`: hill-climb `σ_B` over `k ∈ [0, 255]`. -/
def otsuThreshold (image : List (List ℕ)) : Except String ℕ :=
  climb1dHill (List.range 256) (otsuEval image)

/-- One step of the spec-side exhaustive argmax: keep the best defined
score seen so far (first maximum wins). -/
def specArgmaxStep (evaluate : ℕ → Option ℚ) (best : Option (ℕ × ℚ)) (k : ℕ) :
    Option (ℕ × ℚ) :=
  match evaluate k with
  | none => best
  | some v =>
    match best with
    | none => some (k, v)
    | some kv => if kv.2 < v then some (k, v) else some kv

/-- Stated from the spec, for comparison with `otsuThreshold`: the
exhaustive argmax of `σ_B(k)` over `k ∈ [0, 255]` (undefined/NaN scores
cannot be maximal; the first maximum wins). -/
def specExhaustiveOtsuArgmax (evaluate : ℕ → Option ℚ) : Option ℕ :=
  ((List.range 256).foldl (specArgmaxStep evaluate) none).map Prod.fst

/-- Stated from the spec: the modes of a histogram, as strict local maxima
(out-of-range neighbours count 0). -/
def specModes (h : List ℕ) : List ℕ :=
  (List.range h.length).filter (fun i =>
    (decide (0 < h.getD i 0) &&
     decide ((if i = 0 then 0 else h.getD (i - 1) 0) < h.getD i 0) &&
     decide (h.getD (i + 1) 0 < h.getD i 0)))

/-- Stated from the spec: a histogram is bimodal when it has exactly two
modes, unimodal when it has exactly one. -/
def specUnimodalOrBimodal (h : List ℕ) : Prop :=
  (specModes h).length = 1 ∨ (specModes h).length = 2

/-! ## `Conversion.py`: `convertECGLeads`

The orchestrator is embedded parametrically in the image type and in the
two digitizers it binds at lines 31–32 (`ecgdigitize.digitizeSignal`,
`ecgdigitize.digitizeGrid`) together with `image.rotated` /
`image.cropped`; the claims quantify over their outcomes.  A digitizer
call yields either an `np.ndarray` signal, Python `None` (the Viterbi
extractor found no candidate points), or a `common.Failure` value (the
declared failure type; `digitizeGrid` produces it, `digitizeSignal` only
declares it). -/

/-- Result of `ecgdigitize.digitizeSignal`. -/
inductive SigResult where
  | failure (reason : String)
  | noneRes
  | ok (sig : List (Option ℚ))
deriving DecidableEq, Repr

/-- `isinstance(signal, common.Failure)`. -/
def SigResult.isFailure : SigResult → Bool
  | .failure _ => true
  | _ => false

/-- Result of `ecgdigitize.digitizeGrid`. -/
inductive GridResult where
  | failure (reason : String)
  | ok (v : ℚ)
deriving DecidableEq, Repr

/-- `model.Lead.Lead`: a region of interest and a start time. -/
structure Lead where
  x : ℤ
  y : ℤ
  width : ℤ
  height : ℤ
  startTime : ℚ
deriving DecidableEq

/-- `ecgdigitize.image.Rectangle`. -/
structure Rectangle where
  x : ℤ
  y : ℤ
  width : ℤ
  height : ℤ
deriving DecidableEq

/-- `model.InputParameters.InputParameters`; the lead map is an ordered
association list keyed by lead id. -/
structure InputParameters where
  rotation : ℚ
  timeScale : ℚ
  voltScale : ℚ
  leads : List (ℕ × Lead)

/-- The image-level callables `convertECGLeads` composes: rotation, crop,
and the two digitizers. -/
structure Pipeline (Img : Type) where
  rotatedF : Img → ℚ → Img
  croppedF : Img → Rectangle → Img
  digitizeSignalF : Img → SigResult
  digitizeGridF : Img → GridResult

/-- First component of the value `convertECGLeads` returns: Python `None`,
a `common.Failure` value, or the lead-to-signal dictionary. -/
inductive ConvOut where
  | nothing
  | fail (reason : String)
  | sigs (m : List (ℕ × List (Option ℚ)))
deriving DecidableEq, Repr

/-- Whether the returned value is a `common.Failure`. -/
def ConvOut.isFail : ConvOut → Bool
  | .fail _ => true
  | _ => false

/-- Second component of the value `convertECGLeads` returns: Python `None`
or the lead-to-preview dictionary (preview pixel content is outside the
claims, so a preview is embedded as `Unit`). -/
inductive PrevOut where
  | nothing
  | prevs (m : List (ℕ × Unit))
deriving DecidableEq, Repr

/-- Steps 1–2 of `convertECGLeads`: rotate, then crop one image per lead. -/
def convLeadImages {Img : Type} (P : Pipeline Img) (inputImage : Img)
    (parameters : InputParameters) : List (ℕ × Img) :=
  let rotatedImage := P.rotatedF inputImage parameters.rotation
  parameters.leads.map (fun p =>
    (p.1, P.croppedF rotatedImage ⟨p.2.x, p.2.y, p.2.width, p.2.height⟩))

/-- Step 3 of `convertECGLeads`: run signal extraction on every crop. -/
def convSignals {Img : Type} (P : Pipeline Img) (inputImage : Img)
    (parameters : InputParameters) : List (ℕ × SigResult) :=
  (convLeadImages P inputImage parameters).map (fun p => (p.1, P.digitizeSignalF p.2))

/-- The preview step: `visualization.overlaySignalOnImage(signal, image)`
immediately reads `signal.shape`, so any non-array signal (a
`common.Failure` or Python `None`) raises `AttributeError`. -/
def convPreviews (signals : List (ℕ × SigResult)) :
    Except String (List (ℕ × Unit)) :=
  signals.mapM (fun p =>
    match p.2 with
    | .ok _ => .ok (p.1, ())
    | .failure _ => .error "AttributeError: 'Failure' object has no attribute 'shape'"
    | .noneRes => .error "AttributeError: 'NoneType' object has no attribute 'shape'")

/-- Step 4 of `convertECGLeads`: the grid spacings that did not fail. -/
def convSpacings (gridSpacings : List (ℕ × GridResult)) : List ℚ :=
  gridSpacings.filterMap (fun p =>
    match p.2 with
    | .ok v => some v
    | .failure _ => none)

/-- Step 5 of `convertECGLeads` for one lead:
`verticallyScaleECGSignal(zeroECGSignal(signal), grid, voltScale, 1.0)`.
A `common.Failure` value reaches `common.mode`, where `Counter` raises
`TypeError`; a `None` signal gives an empty `Counter`, so
`most_common(1)[0]` raises `IndexError`. -/
def convScaledOne (gridHeightInPixels voltScale : ℚ) (s : SigResult) :
    Except String (List (Option ℚ)) :=
  match s with
  | .ok sig => do
      let zeroed ← zeroECGSignal sig
      verticallyScaleECGSignal zeroed gridHeightInPixels voltScale 1
  | .failure _ => .error "TypeError: 'Failure' object is not iterable"
  | .noneRes => .error "IndexError: Counter of None is empty"

/-- Steps 6 of `convertECGLeads` for one lead: left-pad by
`int(startTime / samplingPeriod)` zeros (`parameters.leads[leadId]` is a
dictionary lookup). -/
def convPadOne (parameters : InputParameters) (samplingPeriod : ℚ)
    (leadId : ℕ) (signal : List (Option ℚ)) : Except String (List (Option ℚ)) := do
  match parameters.leads.lookup leadId with
  | none => .error "KeyError"
  | some lead => do
      let ratio ← pyDiv lead.startTime samplingPeriod
      padLeft signal (pyTrunc ratio)

/-- Step 4 of `convertECGLeads`: run grid estimation on every crop. -/
def convGrids {Img : Type} (P : Pipeline Img) (inputImage : Img)
    (parameters : InputParameters) : List (ℕ × GridResult) :=
  (convLeadImages P inputImage parameters).map (fun p => (p.1, P.digitizeGridF p.2))

/-- `samplingPeriodInPixels = gridHeightInPixels = common.mean(spacings)`. -/
def convGridHeight {Img : Type} (P : Pipeline Img) (inputImage : Img)
    (parameters : InputParameters) : ℚ :=
  meanQ (convSpacings (convGrids P inputImage parameters))

/-- The sampling period computed once by `convertECGLeads`. -/
def convSamplingPeriod {Img : Type} (P : Pipeline Img) (inputImage : Img)
    (parameters : InputParameters) : Except String ℚ :=
  ecgSignalSamplingPeriod (convGridHeight P inputImage parameters) parameters.timeScale 1

/-- The entry body of the `scaledSignals` dictionary comprehension. -/
def scaleOnePair (grid volt : ℚ) (p : ℕ × SigResult) :
    Except String (ℕ × List (Option ℚ)) := do
  let s ← convScaledOne grid volt p.2
  .ok (p.1, s)

/-- Step 5 of `convertECGLeads`: zero-center and vertically rescale every
signal (including non-arrays, which raise). -/
def convScaledSignals {Img : Type} (P : Pipeline Img) (inputImage : Img)
    (parameters : InputParameters) :
    Except String (List (ℕ × List (Option ℚ))) :=
  (convSignals P inputImage parameters).mapM
    (scaleOnePair (convGridHeight P inputImage parameters) parameters.voltScale)

/-- The entry body of the `paddedSignals` dictionary comprehension. -/
def padOnePair (parameters : InputParameters) (samplingPeriod : ℚ)
    (p : ℕ × List (Option ℚ)) : Except String (ℕ × List (Option ℚ)) := do
  let padded ← convPadOne parameters samplingPeriod p.1 p.2
  .ok (p.1, padded)

/-- Step 6 of `convertECGLeads`: compute the sampling period, then left-pad
each scaled signal. -/
def convPaddedSignals {Img : Type} (P : Pipeline Img) (inputImage : Img)
    (parameters : InputParameters) :
    Except String (List (ℕ × List (Option ℚ))) := do
  let scaledSignals ← convScaledSignals P inputImage parameters
  let samplingPeriod ← convSamplingPeriod P inputImage parameters
  scaledSignals.mapM (padOnePair parameters samplingPeriod)

/-- The entry body of the `fullSignals` dictionary comprehension. -/
def rightPadTo (maxLength : ℕ) (p : ℕ × List (Option ℚ)) :
    Except String (ℕ × List (Option ℚ)) := do
  let full ← padRight p.2 ((maxLength : ℤ) - p.2.length)
  .ok (p.1, full)

/-- The tail of `convertECGLeads`: right-pad every lead to the maximum
padded length. -/
def convFullSignals {Img : Type} (P : Pipeline Img) (inputImage : Img)
    (parameters : InputParameters) :
    Except String (List (ℕ × List (Option ℚ))) := do
  let paddedSignals ← convPaddedSignals P inputImage parameters
  match paddedSignals with
  | [] => .error "ValueError: max() arg is an empty sequence"
  | _ =>
    let maxLength := (paddedSignals.map (fun p => p.2.length)).foldl max 0
    paddedSignals.mapM (rightPadTo maxLength)

/-- `Conversion.convertECGLeads`. -/
def convertECGLeads {Img : Type} (P : Pipeline Img) (inputImage : Img)
    (parameters : InputParameters) : Except String (ConvOut × PrevOut) :=
  let signals := convSignals P inputImage parameters
  if signals.all (fun p => p.2.isFailure) then .ok (.nothing, .nothing)
  else do
    let previews ← convPreviews signals
    let spacings := convSpacings (convGrids P inputImage parameters)
    if spacings.length = 0 then .ok (.nothing, .nothing)
    else do
      let fullSignals ← convFullSignals P inputImage parameters
      .ok (.sigs fullSignals, .prevs previews)

/-! ## `viterbi.py`: cost function and path search

`math.sqrt` / `math.asin` are embedded over ℝ.  `asin(y / d)` raises
`ZeroDivisionError` when the distance `d` is zero; its mathematical
domain is never left because `|y| ≤ sqrt(x² + y²)`. -/

/-- `viterbi.euclideanDistance`. -/
noncomputable def euclideanDistance (x y : ℚ) : ℝ :=
  Real.sqrt ((x : ℝ) ^ 2 + (y : ℝ) ^ 2)

/-- `viterbi.distanceBetweenPoints`. -/
noncomputable def distanceBetweenPoints (firstPoint secondPoint : Point) : ℝ :=
  euclideanDistance (firstPoint.x - secondPoint.x) (firstPoint.y - secondPoint.y)

/-- `viterbi.angleFromOffsets`: `asin(y / dist) / pi * 180`, raising
`ZeroDivisionError` on a zero distance. -/
noncomputable def angleFromOffsets (x y : ℚ) : Except String ℝ :=
  open scoped Classical in
  if euclideanDistance x y = 0 then .error "ZeroDivisionError: float division by zero"
  else .ok (Real.arcsin ((y : ℝ) / euclideanDistance x y) / Real.pi * 180)

/-- `viterbi.angleBetweenPoints`. -/
noncomputable def angleBetweenPoints (firstPoint secondPoint : Point) :
    Except String ℝ :=
  angleFromOffsets (secondPoint.x - firstPoint.x) (secondPoint.y - firstPoint.y)

/-- `viterbi.angleSimilarity`. -/
noncomputable def angleSimilarity (firstAngle secondAngle : ℝ) : ℝ :=
  (180 - |secondAngle - firstAngle|) / 180

/-- `viterbi.score`: transition cost from `currentPoint` back to
`candidatePoint` whose incoming angle is `candidateAngle`
(`DISTANCE_WEIGHT = 0.5`). -/
noncomputable def score (currentPoint candidatePoint : Point)
    (candidateAngle : ℝ) : Except String ℝ := do
  let currentAngle ← angleBetweenPoints candidatePoint currentPoint
  let angleValue := 1 - angleSimilarity currentAngle candidateAngle
  let distanceValue := distanceBetweenPoints currentPoint candidatePoint
  .ok (distanceValue * (1 / 2) + angleValue * (1 - 1 / 2))

/-- The `bestPathToPoint` dictionary: cumulative score, predecessor,
incoming angle. -/
def BestPath : Type := Point → Option (ℝ × Option Point × ℝ)

/-- The empty dictionary. -/
def emptyBestPath : BestPath := fun _ => none

/-- Dictionary update `d[p] = r`. -/
def dictInsert (d : BestPath) (p : Point) (r : ℝ × Option Point × ℝ) : BestPath :=
  fun q => if q = p then some r else d q

/-- The window-expansion loop of `viterbi.getAdjacent`: slice
`pointsByColumn[left:right]`, widening leftwards while empty and
`left ≥ 0`.  The loop lowers `left` by one per round and stops no later
than `left = -1`, so it runs at most `left + 2` rounds; recursion is on
that fuel, which the caller supplies in full. -/
def getAdjacentLoop (pointsByColumn : List (List Point)) (right : ℤ) :
    ℕ → ℤ → List Point
  | 0, left => flattenL (pySlice pointsByColumn left right)
  | fuel + 1, left =>
    let result := flattenL (pySlice pointsByColumn left right)
    if result.isEmpty ∧ 0 ≤ left then getAdjacentLoop pointsByColumn right fuel (left - 1)
    else result

/-- The yield step of `viterbi.getAdjacent`: a point missing from the
dictionary fails the source's assertion, otherwise its stored score and
incoming angle are produced. -/
def adjacentEntry (bestPathToPoint : BestPath) (point : Point) :
    Except String (ℝ × Point × ℝ) :=
  match bestPathToPoint point with
  | none => .error "AssertionError: point found before being recorded"
  | some r => .ok (r.1, point, r.2.2)

/-- `viterbi.getAdjacent`: yield `(score, point, angle)` for each point in
the window. -/
def getAdjacent (pointsByColumn : List (List Point)) (bestPathToPoint : BestPath)
    (startingColumn minimumLookBack : ℤ) : Except String (List (ℝ × Point × ℝ)) :=
  let rightColumnIndex := startingColumn
  let leftColumnIndex := lowerClamp (startingColumn - minimumLookBack) 0
  let result := getAdjacentLoop pointsByColumn rightColumnIndex
    (leftColumnIndex + 2).toNat leftColumnIndex
  result.mapM (adjacentEntry bestPathToPoint)

/-- Python `min(pairs, key=first)`: first minimum wins; an empty sequence
raises `ValueError`. -/
noncomputable def pyMinByFirst (l : List (ℝ × Point)) : Except String (ℝ × Point) :=
  open scoped Classical in
  match l with
  | [] => .error "ValueError: min() arg is an empty sequence"
  | h :: t => .ok (t.foldl (fun acc x => if x.1 < acc.1 then x else acc) h)

/-- The scoring step of the DP loop: an adjacent entry's cumulative score
plus the transition cost to the current point. -/
noncomputable def scoredEntry (point : Point) (t : ℝ × Point × ℝ) :
    Except String (ℝ × Point) := do
  let s ← score point t.2.1 t.2.2
  .ok (s + t.1, t.2.1)

/-- The body of the DP loop of `viterbi.extractSignal` for one candidate
point: gather adjacent points, choose the cheapest predecessor (or seed
`(0, none, 0)` when there is none), and record it. -/
noncomputable def processPoint (pointsByColumn : List (List Point))
    (bestPathToPoint : BestPath) (point : Point) : Except String BestPath := do
  let adjacent ← getAdjacent pointsByColumn bestPathToPoint point.index 1
  match adjacent with
  | [] => .ok (dictInsert bestPathToPoint point (0, none, 0))
  | _ => do
    let scored ← adjacent.mapM (scoredEntry point)
    let best ← pyMinByFirst scored
    let angle ← angleBetweenPoints best.2 point
    .ok (dictInsert bestPathToPoint point (best.1, some best.2, angle))

/-- The seeding loop of `viterbi.extractSignal`: every point of
`pointsByColumn[:1]` gets the record `(0, none, 0)`. -/
def seedDict (pointsByColumn : List (List Point)) : BestPath :=
  (pointsByColumn.take 1).foldl
    (fun d column => column.foldl
      (fun d point => dictInsert d point ((0 : ℝ), none, (0 : ℝ))) d)
    emptyBestPath

/-- The backtracking loop of `viterbi.extractSignal`: follow predecessor
links until `none`.  Predecessors live in strictly earlier columns, so
`width + 1` rounds of fuel always suffice; running out is an error. -/
def backtrack (bestPathToPoint : BestPath) :
    ℕ → Option Point → List Point → Except String (List Point)
  | 0, _, _ => .error "Nonterminating"
  | _ + 1, none, acc => .ok acc
  | fuel + 1, some p, acc =>
    match bestPathToPoint p with
    | none => .error "KeyError"
    | some r => backtrack bestPathToPoint fuel r.2.1 (acc ++ [p])

/-- Python `range(a, b)` over integers. -/
def pyRangeInt (a b : ℤ) : List ℤ :=
  (List.range (b - a).toNat).map (fun (i : ℕ) => a + (i : ℤ))

/-- `viterbi.interpolate`: linear interpolation at the integer columns
strictly between the two points (`ZeroDivisionError` on a vertical pair). -/
def interpolate (fromPoint toPoint : Point) : Except String (List Point) :=
  if toPoint.x - fromPoint.x = 0 then .error "ZeroDivisionError: float division by zero"
  else
    let slope := (toPoint.y - fromPoint.y) / (toPoint.x - fromPoint.x)
    .ok ((pyRangeInt (fromPoint.index + 1) toPoint.index).map
      (fun (x : ℤ) => ⟨(x : ℚ), slope * ((x : ℚ) - toPoint.x) + toPoint.y⟩))

/-- The fill loop of `viterbi.convertPointsToSignal`: for each later point
(in decreasing x), interpolate into the gap when `signal[index + 1]` is
still NaN, then write the point's own sample. -/
def convertLoop (priorPoint : Point) (signal : List (Option ℚ)) :
    List Point → Except String (List (Option ℚ))
  | [] => .ok signal
  | point :: rest => do
    let probe ← pyGet signal (point.index + 1)
    let signal' ←
      if probe = none then do
        let interpolated ← interpolate point priorPoint
        interpolated.foldlM (fun s ip => pySet s ip.index (some ip.y)) signal
      else pure signal
    let signal'' ← pySet signal' point.index (some point.y)
    convertLoop point signal'' rest

/-- `viterbi.convertPointsToSignal`: allocate `np.full(arraySize, nan)`
with `arraySize = width or (firstPoint.x + 1)` and fill it from the path
points.  An empty path fails the source's assertion; a non-integer or
negative size makes `np.full` raise. -/
def convertPointsToSignal (points : List Point) (width : Option ℕ) :
    Except String (List (Option ℚ)) :=
  match points with
  | [] => .error "AssertionError: empty path"
  | firstPoint :: rest =>
    let sizeQ : ℚ :=
      match width with
      | some w => if w = 0 then firstPoint.x + 1 else (w : ℚ)
      | none => firstPoint.x + 1
    if sizeQ.den = 1 ∧ 0 ≤ sizeQ.num then do
      let signal := List.replicate sizeQ.num.toNat (none : Option ℚ)
      let signal' ← pySet signal firstPoint.index (some firstPoint.y)
      convertLoop firstPoint signal' rest
    else .error "TypeError: np.full with a non-natural size"

/-- `viterbi.extractSignal`: the full Viterbi extraction.  Returns
`ok none` (Python `None`) when the mask holds no candidate point. -/
noncomputable def extractSignal (img : List (List ℕ)) :
    Except String (Option (List (Option ℚ))) :=
  let pointsByColumn := getPointLocations img
  let points := flattenL pointsByColumn
  if points.isEmpty then .ok none
  else do
    let seeded := seedDict pointsByColumn
    let bestPathToPoint ← (pointsByColumn.drop 1).foldlM
      (fun d column => column.foldlM (processPoint pointsByColumn) d) seeded
    let optimalCandidates ← getAdjacent pointsByColumn bestPathToPoint
      (imgWidth img) 20
    let best ← pyMinByFirst (optimalCandidates.map (fun t => (t.1, t.2.1)))
    let bestPath ← backtrack bestPathToPoint (imgWidth img + 1) (some best.2) []
    let signal ← convertPointsToSignal bestPath none
    .ok (some signal)

/-! ## Verification predicates for the Viterbi development -/

/-- Every point of the first `k` candidate columns is recorded in the
dictionary. -/
def DomUpTo (cols : List (List Point)) (d : BestPath) (k : ℕ) : Prop :=
  ∀ p ∈ flattenL (cols.take k), (d p).isSome = true

/-- Every predecessor link of the dictionary goes to a candidate point in a
strictly earlier column. -/
def BackLinks (cols : List (List Point)) (d : BestPath) : Prop :=
  ∀ p s q a, d p = some (s, some q, a) →
    q ∈ flattenL cols ∧ ∃ cq cp : ℕ, q.x = (cq : ℚ) ∧ p.x = (cp : ℚ) ∧ cq < cp

/-! ## Concrete fixtures used by the claim theorems -/

/-- Whether an embedded Python call returned normally. -/
def exceptIsOk {ε α : Type} : Except ε α → Bool
  | .ok _ => true
  | .error _ => false

/-- The column of `findContiguousRegions`' own docstring:
`|---###--#-----#####|` as pixel values (the final run touches the edge). -/
def exampleColumn : List ℕ :=
  [0, 0, 0, 1, 1, 1, 0, 0, 1, 0, 0, 0, 0, 0, 1, 1, 1, 1, 1]

/-- A 1×2 grayscale image whose histogram has modes at 10 and 30 only. -/
def bimodalImage : List (List ℕ) := [[10, 30]]

/-- A 2×3 binary mask whose only candidate point sits in column 0. -/
def maskOnePoint : List (List ℕ) := [[1, 0, 0], [0, 0, 0]]

/-- A pipeline in which signal extraction fails (with a `common.Failure`)
on every crop. -/
def pipeAllFail : Pipeline Unit :=
  ⟨fun i _ => i, fun i _ => i, fun _ => .failure "no signal", fun _ => .ok 1⟩

/-- One selected lead. -/
def paramsOneLead : InputParameters := ⟨0, 25, 10, [(0, ⟨0, 0, 2, 2, 0⟩)]⟩

/-- A pipeline whose crops are told apart by their rectangle's `x`: lead 0
extracts successfully, every other lead fails. -/
def pipeMixed : Pipeline ℤ :=
  ⟨fun i _ => i, fun _ r => r.x,
   fun i => if i = 0 then .ok [some 5] else .failure "bad lead",
   fun _ => .ok 1⟩

/-- Two selected leads with distinct rectangles. -/
def paramsTwoLeads : InputParameters :=
  ⟨0, 25, 10, [(0, ⟨0, 0, 2, 2, 0⟩), (1, ⟨1, 0, 2, 2, 0⟩)]⟩

/-- A pipeline exercising the padding arithmetic: grid period `1/2` px,
so with `timeScale = 1` the sampling period is 2 and
`startTime / samplingPeriod = 3/2`. -/
def pipePad : Pipeline Unit :=
  ⟨fun i _ => i, fun i _ => i,
   fun _ => .ok [some 7, some 7, some 7], fun _ => .ok (1 / 2)⟩

/-- One lead whose `startTime` is 3. -/
def paramsPad : InputParameters := ⟨0, 1, 1, [(0, ⟨0, 0, 3, 2, 3⟩)]⟩

/-- A pipeline with two successful leads of different lengths. -/
def pipeTwoOk : Pipeline ℤ :=
  ⟨fun i _ => i, fun _ r => r.x,
   fun i => if i = 0 then .ok [some 1, some 2] else .ok [some 3],
   fun _ => .ok 1⟩

/-- Whether `digitizeSignal` returned an actual `np.ndarray`. -/
def SigResult.isArray : SigResult → Bool
  | .ok _ => true
  | _ => false

end PaperECG

/-! # Theorems -/

namespace PaperECG

/-! ## Generic helper lemmas -/

theorem exbind_ok {ε α β : Type} (a : α) (f : α → Except ε β) :
    (Except.ok a >>= f) = f a := rfl

theorem exbind_error {ε α β : Type} (e : ε) (f : α → Except ε β) :
    ((Except.error e : Except ε α) >>= f) = .error e := rfl

theorem exceptIsOk_error {ε α : Type} (e : ε) :
    exceptIsOk (Except.error e : Except ε α) = false := rfl

theorem exceptIsOk_ok {ε α : Type} (a : α) :
    exceptIsOk (Except.ok a : Except ε α) = true := rfl

theorem exceptIsOk_false_iff {ε α : Type} (x : Except ε α) :
    exceptIsOk x = false ↔ ∃ e, x = .error e := by
  cases x <;> simp [exceptIsOk]

/-- `mapM` over `Except` succeeds exactly when every element does. -/
theorem exceptIsOk_mapM {α β : Type} (f : α → Except String β) (l : List α) :
    exceptIsOk (l.mapM f) = l.all (fun a => exceptIsOk (f a)) := by
  induction l with
  | nil => rfl
  | cons a t ih =>
    rw [List.mapM_cons, List.all_cons]
    cases hfa : f a with
    | error e =>
      rw [exbind_error, exceptIsOk_error, exceptIsOk_error]
      simp
    | ok b =>
      rw [exbind_ok, exceptIsOk_ok]
      cases hmt : t.mapM f with
      | error e =>
        rw [hmt] at ih
        rw [exbind_error, exceptIsOk_error]
        rw [exceptIsOk_error] at ih
        simp [← ih]
      | ok r =>
        rw [hmt] at ih
        rw [exbind_ok]
        rw [exceptIsOk_ok] at ih
        have hp : exceptIsOk (pure (b :: r) : Except String (List β)) = true := rfl
        rw [hp]
        simp [← ih]

/-- A successful `mapM` run relates input and output pointwise. -/
theorem mapM_ok_forall₂ {α β : Type} (f : α → Except String β) :
    ∀ (l : List α) (r : List β), l.mapM f = .ok r →
      List.Forall₂ (fun a b => f a = .ok b) l r := by
  intro l
  induction l with
  | nil =>
    intro r h
    have h' : (Except.ok [] : Except String (List β)) = .ok r := by
      rw [← h]; rfl
    cases h'
    exact List.Forall₂.nil
  | cons a t ih =>
    intro r h
    rw [List.mapM_cons] at h
    cases hfa : f a with
    | error e => rw [hfa, exbind_error] at h; exact absurd h (by simp)
    | ok b =>
      rw [hfa, exbind_ok] at h
      cases hmt : t.mapM f with
      | error e => rw [hmt, exbind_error] at h; exact absurd h (by simp)
      | ok s =>
        rw [hmt, exbind_ok] at h
        have hbs : b :: s = r := by
          simpa [pure, Except.pure] using h
        rw [← hbs]
        exact List.Forall₂.cons hfa (ih s hmt)

/-- A pointwise-successful list makes `mapM` succeed. -/
theorem forall₂_mapM_ok {α β : Type} (f : α → Except String β) :
    ∀ (l : List α) (r : List β), List.Forall₂ (fun a b => f a = .ok b) l r →
      l.mapM f = .ok r := by
  intro l
  induction l with
  | nil =>
    intro r h
    cases h
    rfl
  | cons a t ih =>
    intro r h
    cases h with
    | cons hab htail =>
      rw [List.mapM_cons, hab, exbind_ok, ih _ htail, exbind_ok]
      rfl

/-- Elements are bounded by a running `foldl max`. -/
theorem le_foldl_max (l : List ℕ) :
    ∀ (a : ℕ), (∀ x ∈ l, x ≤ l.foldl max a) ∧ a ≤ l.foldl max a := by
  induction l with
  | nil =>
    intro a
    exact ⟨fun x hx => absurd hx (List.not_mem_nil x), le_refl a⟩
  | cons y t ih =>
    intro a
    refine ⟨?_, le_trans (le_max_left a y) (ih (max a y)).2⟩
    intro x hx
    rcases List.mem_cons.mp hx with rfl | hx
    · exact le_trans (le_max_right a x) (ih (max a x)).2
    · exact (ih (max a y)).1 x hx

/-! ## Claim C4 -/

/-- Claim C4 (evaluation at the failing input): on the example column of
`findContiguousRegions`' own docstring — three maximal runs of 1-pixels,
the third one (`14–18`) reaching the bottom edge — the code returns only
two regions (with exclusive upper ends), so the bottom-edge run
contributes no candidate point: the column's candidate points are
`(0, 4)` and `(0, 8)` only, none for the run at rows 14–18. -/
theorem claim4_bottom_edge_run_dropped :
    findContiguousRegions exampleColumn = [(3, 6), (8, 9)] ∧
    findContiguousRegionCenters exampleColumn = [4, 8] ∧
    getPointLocations (exampleColumn.map (fun v => [v])) = [[⟨0, 4⟩, ⟨0, 8⟩]] :=
  ⟨by decide, by decide, by with_unfolding_all decide⟩

/-! ## Claim C8 -/

/-- Claim C8 (counterexample): for the length-4 projection `[1, 2, 3, 4]`
the autocorrelation vector has 2 entries (shifts `k = 0, 1`), not
`⌊N/2⌋ + 1 = 3` as the claim states. -/
theorem claim8_counterexample :
    autocorrelation Prod.mk [(1 : ℚ), 2, 3, 4] none =
      .ok [([1, 2, 3, 4], [1, 2, 3, 4]), ([1, 2, 3], [2, 3, 4])] ∧
    [(1 : ℚ), 2, 3, 4].length / 2 + 1 ≠ 2 :=
  ⟨by with_unfolding_all decide, by decide⟩

/-- Claim C8 (amended): with the default limit, the autocorrelation vector
has `⌊N/2⌋` entries, one for each shift `k = 0, 1, …, ⌊N/2⌋ - 1`; entry
`k` is the correlation of `signal[:-k]` with `signal[k:]` (the unshifted
pair at `k = 0`). -/
theorem claim8_amended {α : Type} (corrcoef : List ℚ → List ℚ → α)
    (signal : List ℚ) (k : ℕ) (hk : k < signal.length / 2) :
    (autocorrelation corrcoef signal none).map List.length =
      .ok (signal.length / 2) ∧
    (autocorrelation corrcoef signal none).map (fun l => l.getD k (corrcoef [] [])) =
      .ok (corrcoef (signal.take (signal.length - k)) (signal.drop k)) := by
  have hsp : shiftedPairs signal none =
      .ok ((List.range (signal.length / 2)).map (fun offset =>
        if offset = 0 then (signal, signal)
        else (signal.take (signal.length - offset), signal.drop offset))) := by
    unfold shiftedPairs
    simp
  constructor
  · unfold autocorrelation
    rw [hsp]
    simp [Except.map]
  · unfold autocorrelation
    rw [hsp]
    simp only [Except.map, List.map_map]
    have : ((List.range (signal.length / 2)).map
        ((fun p : List ℚ × List ℚ => corrcoef p.1 p.2) ∘ (fun offset =>
          if offset = 0 then (signal, signal)
          else (signal.take (signal.length - offset), signal.drop offset)))).getD k
          (corrcoef [] []) =
        corrcoef (signal.take (signal.length - k)) (signal.drop k) := by
      rw [List.getD_eq_getElem?_getD, List.getElem?_map, List.getElem?_range hk]
      rcases Nat.eq_zero_or_pos k with hk0 | hk0
      · subst hk0; simp
      · simp [Function.comp, Nat.pos_iff_ne_zero.mp hk0]
    rw [this]

/-- Claim C8 (witness): the amended statement at the concrete projection
`[1, 2, 3, 4]` and shift `k = 1`. -/
theorem claim8_witness :
    1 < [(1 : ℚ), 2, 3, 4].length / 2 ∧
    ((autocorrelation Prod.mk [(1 : ℚ), 2, 3, 4] none).map List.length =
      .ok ([(1 : ℚ), 2, 3, 4].length / 2) ∧
     (autocorrelation Prod.mk [(1 : ℚ), 2, 3, 4] none).map
        (fun l => l.getD 1 (Prod.mk [] [])) =
      .ok (Prod.mk ([(1 : ℚ), 2, 3, 4].take ([(1 : ℚ), 2, 3, 4].length - 1))
        ([(1 : ℚ), 2, 3, 4].drop 1))) :=
  ⟨by decide, claim8_amended Prod.mk [(1 : ℚ), 2, 3, 4] 1 (by decide)⟩

/-! ## Claim C9 -/

/-- The distance `sqrt(x² + y²)` vanishes only at the origin. -/
theorem euclideanDistance_eq_zero_iff (x y : ℚ) :
    euclideanDistance x y = 0 ↔ x = 0 ∧ y = 0 := by
  unfold euclideanDistance
  rw [Real.sqrt_eq_zero (by positivity)]
  constructor
  · intro h
    have hx : (x : ℝ) = 0 ∧ (y : ℝ) = 0 := by
      constructor <;> nlinarith [sq_nonneg (x : ℝ), sq_nonneg (y : ℝ)]
    exact ⟨by exact_mod_cast hx.1, by exact_mod_cast hx.2⟩
  · rintro ⟨hx, hy⟩
    subst hx; subst hy
    norm_num

/-- Claim C9 (counterexample): the transition cost of staying at the point
`(2, 5)` is not the value 0 — evaluating it raises `ZeroDivisionError`
inside `angleFromOffsets`, because the distance between the two equal
points is 0. -/
theorem claim9_counterexample :
    score ⟨2, 5⟩ ⟨2, 5⟩ 0 = .error "ZeroDivisionError: float division by zero" ∧
    score ⟨2, 5⟩ ⟨2, 5⟩ 0 ≠ .ok 0 := by
  have h : score ⟨2, 5⟩ ⟨2, 5⟩ 0 = .error "ZeroDivisionError: float division by zero" := by
    unfold score angleBetweenPoints angleFromOffsets
    rw [if_pos (by rw [euclideanDistance_eq_zero_iff]; norm_num)]
    rfl
  exact ⟨h, by rw [h]; simp⟩

/-- Claim C9 (amended): for every point `a` and every incoming angle `α`,
evaluating `score(a, a, α)` raises `ZeroDivisionError` (the division
`y / euclideanDistance(x, y)` has a zero divisor), rather than being
defined and equal to 0. -/
theorem claim9_amended (a : Point) (α : ℝ) :
    score a a α = .error "ZeroDivisionError: float division by zero" := by
  unfold score angleBetweenPoints angleFromOffsets
  rw [if_pos (by rw [euclideanDistance_eq_zero_iff]; constructor <;> ring)]
  rfl

/-! ## Claim C7 -/

/-- One argmax step either keeps the accumulator or records the score it
just evaluated. -/
theorem specArgmaxStep_cases (evaluate : ℕ → Option ℚ) (acc : Option (ℕ × ℚ)) (k : ℕ) :
    specArgmaxStep evaluate acc k = acc ∨
    ∃ v, evaluate k = some v ∧ specArgmaxStep evaluate acc k = some (k, v) := by
  cases hev : evaluate k with
  | none => left; simp [specArgmaxStep, hev]
  | some v =>
    cases acc with
    | none => right; exact ⟨v, rfl, by simp [specArgmaxStep, hev]⟩
    | some kv0 =>
      by_cases hlt : kv0.2 < v
      · right; exact ⟨v, rfl, by simp [specArgmaxStep, hev, hlt]⟩
      · left; simp [specArgmaxStep, hev, hlt]

/-- Any pair stored by the argmax fold carries its own defined score. -/
theorem specArgmaxStep_inv (evaluate : ℕ → Option ℚ) (l : List ℕ) :
    ∀ (acc : Option (ℕ × ℚ)), (∀ kv, acc = some kv → evaluate kv.1 = some kv.2) →
      ∀ kv, l.foldl (specArgmaxStep evaluate) acc = some kv →
      evaluate kv.1 = some kv.2 := by
  induction l with
  | nil => intro acc hacc kv h; exact hacc kv h
  | cons x t ih =>
    intro acc hacc kv h
    refine ih (specArgmaxStep evaluate acc x) ?_ kv h
    intro kv' hkv'
    rcases specArgmaxStep_cases evaluate acc x with hstep | ⟨v, hev, hstep⟩
    · exact hacc kv' (by rw [← hstep]; exact hkv')
    · rw [hstep] at hkv'
      cases hkv'
      exact hev

/-- The spec-side exhaustive argmax only returns a `k` whose score is
defined (not NaN). -/
theorem specExhaustiveOtsuArgmax_defined (evaluate : ℕ → Option ℚ) (k : ℕ)
    (h : specExhaustiveOtsuArgmax evaluate = some k) : (evaluate k).isSome := by
  unfold specExhaustiveOtsuArgmax at h
  cases hf : (List.range 256).foldl (specArgmaxStep evaluate) none with
  | none => rw [hf] at h; simp at h
  | some kv =>
    rw [hf] at h
    simp only [Option.map_some'] at h
    have hkv := specArgmaxStep_inv evaluate (List.range 256) none (by intro kv h; cases h) kv hf
    have hk1 : kv.1 = k := by injection h
    rw [← hk1, hkv]
    rfl

theorem getD_range (n i d : ℕ) (h : i < n) : (List.range n).getD i d = i := by
  rw [List.getD_eq_getElem?_getD, List.getElem?_range h]
  rfl

/-- When `climb1dHill`'s loop over `0, …, L-1` returns normally, the
returned index is interior and neither neighbour scores strictly higher
(under float `>`, on which NaN comparisons are false). -/
theorem climbLoop_localmax (L : ℕ) (evaluate : ℕ → Option ℚ) :
    ∀ (fuel cur : ℕ) (sc : Option ℚ) (k : ℕ), cur < L → sc = evaluate cur →
      climbLoop (List.range L) evaluate fuel cur sc = .ok k →
      0 < k ∧ k < L - 1 ∧
      pyGtOpt (evaluate (k - 1)) (evaluate k) = false ∧
      pyGtOpt (evaluate (k + 1)) (evaluate k) = false := by
  intro fuel
  induction fuel with
  | zero =>
    intro cur sc k _ _ h
    exact absurd h (by simp [climbLoop])
  | succ n ih =>
    intro cur sc k hcur hsc h
    simp only [climbLoop, List.length_range] at h
    by_cases h1 : 0 < cur
    · by_cases h2 : cur < L - 1
      · rw [if_pos h1, if_pos h2] at h
        simp only at h
        have hc1 : cur - 1 < L := by omega
        have hc2 : cur + 1 < L := by omega
        rw [getD_range L (cur - 1) 0 hc1, getD_range L (cur + 1) 0 hc2] at h
        by_cases g1 : pyGtOpt (evaluate (cur - 1)) sc = true
        · rw [if_pos (by exact_mod_cast g1)] at h
          exact ih (cur - 1) _ k hc1 rfl h
        · rw [if_neg (by simpa using g1)] at h
          by_cases g2 : pyGtOpt (evaluate (cur + 1)) sc = true
          · rw [if_pos (by exact_mod_cast g2)] at h
            exact ih (cur + 1) _ k hc2 rfl h
          · rw [if_neg (by simpa using g2)] at h
            rw [getD_range L cur 0 hcur] at h
            have hkc : cur = k := by injection h
            rw [← hkc, ← hsc]
            exact ⟨h1, h2, by simpa using g1, by simpa using g2⟩
      · rw [if_pos h1, if_neg h2] at h
        exact absurd h (by simp)
    · rw [if_neg h1] at h
      by_cases h2 : cur < L - 1
      · rw [if_pos h2] at h
        exact absurd h (by simp)
      · rw [if_neg h2] at h
        exact absurd h (by simp)

set_option maxRecDepth 100000 in
/-- Claim C7 (counterexample): for the 1×2 image with pixels `{10, 30}`
the histogram is bimodal, yet the hill climb returns 128 (its σ_B score
and both neighbours' scores are NaN, so no move is ever taken), which is
not the exhaustive argmax of σ_B — the argmax's score must be defined,
while σ_B(128) is NaN. -/
theorem claim7_counterexample :
    otsuThreshold bimodalImage = .ok 128 ∧
    specExhaustiveOtsuArgmax (otsuEval bimodalImage) ≠ some 128 ∧
    specUnimodalOrBimodal (histogram255 (flattenL bimodalImage)) := by
  refine ⟨by with_unfolding_all decide, ?_, ?_⟩
  · intro hc
    have hs := specExhaustiveOtsuArgmax_defined (otsuEval bimodalImage) 128 hc
    have h0 : otsuEval bimodalImage 128 = none := by with_unfolding_all decide
    rw [h0] at hs
    exact absurd hs (by simp)
  · right
    with_unfolding_all decide

/-- Claim C7 (amended): whenever `otsuThreshold` returns a threshold `k`
(rather than raising `NotImplementedError` at the domain edge), `k` is an
interior local maximum of `σ_B` under float comparison: neither `σ_B(k-1)`
nor `σ_B(k+1)` scores strictly higher than `σ_B(k)` (NaN comparisons are
false).  It need not be the exhaustive argmax of `σ_B` over `[0, 255]`. -/
theorem claim7_amended (image : List (List ℕ)) (k : ℕ)
    (h : otsuThreshold image = .ok k) :
    0 < k ∧ k < 255 ∧
    pyGtOpt (otsuEval image (k - 1)) (otsuEval image k) = false ∧
    pyGtOpt (otsuEval image (k + 1)) (otsuEval image k) = false := by
  unfold otsuThreshold climb1dHill at h
  simp only [List.length_range] at h
  rw [getD_range 256 128 0 (by norm_num)] at h
  have := climbLoop_localmax 256 (otsuEval image) 257 128 (otsuEval image 128) k
    (by norm_num) rfl h
  exact ⟨this.1, this.2.1, this.2.2.1, this.2.2.2⟩

set_option maxRecDepth 100000 in
/-- Claim C7 (witness): the amended statement at the bimodal 1×2 image,
where the climb returns 128. -/
theorem claim7_witness :
    otsuThreshold bimodalImage = .ok 128 ∧
    (0 < 128 ∧ 128 < 255 ∧
     pyGtOpt (otsuEval bimodalImage 127) (otsuEval bimodalImage 128) = false ∧
     pyGtOpt (otsuEval bimodalImage 129) (otsuEval bimodalImage 128) = false) := by
  have h : otsuThreshold bimodalImage = .ok 128 := by with_unfolding_all decide
  exact ⟨h, by simpa using claim7_amended bimodalImage 128 h⟩

/-! ## Claims C1 and C2 -/

/-- The preview pass succeeds when every signal is an actual array. -/
theorem convPreviews_ok (signals : List (ℕ × SigResult))
    (h : ∀ p ∈ signals, p.2.isArray = true) :
    convPreviews signals = .ok (signals.map (fun p => (p.1, ()))) := by
  unfold convPreviews
  apply forall₂_mapM_ok
  refine (List.forall₂_map_right_iff).mpr ?_
  refine (List.forall₂_same).mpr ?_
  intro p hp
  have hpa := h p hp
  cases hp2 : p.2 with
  | ok s => simp
  | failure r => rw [hp2] at hpa; exact absurd hpa (by simp [SigResult.isArray])
  | noneRes => rw [hp2] at hpa; exact absurd hpa (by simp [SigResult.isArray])

/-- The preview pass raises `AttributeError` as soon as some signal is not
an array. -/
theorem convPreviews_not_ok (signals : List (ℕ × SigResult))
    (h : ∃ p ∈ signals, p.2.isArray = false) :
    exceptIsOk (convPreviews signals) = false := by
  unfold convPreviews
  rw [exceptIsOk_mapM]
  rcases h with ⟨p, hp, hpa⟩
  refine List.all_eq_false.mpr ⟨p, hp, ?_⟩
  cases hp2 : p.2 with
  | ok s => rw [hp2] at hpa; exact absurd hpa (by simp [SigResult.isArray])
  | failure r => simp [exceptIsOk]
  | noneRes => simp [exceptIsOk]

/-- Claim C1 (amended): when every lead's extraction returns a
`common.Failure`, or when every lead's extraction returns an array but no
grid spacing is estimable, `convertECGLeads` returns the sentinel pair
`(None, None)` — no partial results, but also no `Failure` value and no
reason text. -/
theorem claim1_amended {Img : Type} (P : Pipeline Img) (img : Img)
    (params : InputParameters)
    (h : (convSignals P img params).all (fun p => p.2.isFailure) = true ∨
         ((∀ p ∈ convSignals P img params, p.2.isArray = true) ∧
          convSpacings (convGrids P img params) = [])) :
    convertECGLeads P img params = .ok (.nothing, .nothing) := by
  unfold convertECGLeads
  rcases h with hall | ⟨hok, hsp⟩
  · rw [if_pos hall]
  · by_cases hfail : (convSignals P img params).all (fun p => p.2.isFailure) = true
    · rw [if_pos hfail]
    · rw [if_neg hfail]
      rw [convPreviews_ok _ hok, exbind_ok]
      simp [hsp]

/-- Claim C1 (witness): the amended statement on a pipeline whose two
digitizers fail on every crop. -/
theorem claim1_witness :
    ((convSignals pipeAllFail () paramsOneLead).all (fun p => p.2.isFailure) = true ∨
     ((∀ p ∈ convSignals pipeAllFail () paramsOneLead, p.2.isArray = true) ∧
      convSpacings (convGrids pipeAllFail () paramsOneLead) = [])) ∧
    convertECGLeads pipeAllFail () paramsOneLead = .ok (.nothing, .nothing) :=
  ⟨Or.inl (by with_unfolding_all decide),
   claim1_amended pipeAllFail () paramsOneLead (Or.inl (by with_unfolding_all decide))⟩

/-- Claim C1 (counterexample): when every lead's signal extraction fails,
`convertECGLeads` returns `(None, None)`, which carries no human-readable
reason — it is not a `Failure` value. -/
theorem claim1_counterexample :
    convertECGLeads pipeAllFail () paramsOneLead = .ok (.nothing, .nothing) ∧
    ConvOut.nothing.isFail = false :=
  ⟨by with_unfolding_all decide, by decide⟩

/-- Claim C2 (amended): if at least one lead's signal extraction fails
(returning a `Failure` or `None`) while at least one other lead's
succeeds, `convertECGLeads` does not return at all: it raises
(`AttributeError` when the failed signal's `.shape` is read while
building previews).  The failed lead is not omitted and the successful
leads' signals are not returned. -/
theorem claim2_amended {Img : Type} (P : Pipeline Img) (img : Img)
    (params : InputParameters)
    (h1 : ∃ p ∈ convSignals P img params, p.2.isArray = false)
    (h2 : ∃ p ∈ convSignals P img params, p.2.isArray = true) :
    exceptIsOk (convertECGLeads P img params) = false := by
  unfold convertECGLeads
  have hfail : ¬ ((convSignals P img params).all (fun p => p.2.isFailure) = true) := by
    rcases h2 with ⟨p, hp, hpa⟩
    intro hall
    have hf := List.all_eq_true.mp hall p hp
    cases hp2 : p.2 with
    | ok s => rw [hp2] at hf; exact absurd hf (by simp [SigResult.isFailure])
    | failure r => rw [hp2] at hpa; exact absurd hpa (by simp [SigResult.isArray])
    | noneRes => rw [hp2] at hpa; exact absurd hpa (by simp [SigResult.isArray])
  rw [if_neg hfail]
  have herr := convPreviews_not_ok _ h1
  rw [exceptIsOk_false_iff] at herr
  rcases herr with ⟨e, he⟩
  rw [he, exbind_error]
  rfl

/-- Claim C2 (witness): the amended statement on the two-lead pipeline in
which lead 0 succeeds and lead 1 fails. -/
theorem claim2_witness :
    (∃ p ∈ convSignals pipeMixed 0 paramsTwoLeads, p.2.isArray = false) ∧
    (∃ p ∈ convSignals pipeMixed 0 paramsTwoLeads, p.2.isArray = true) ∧
    exceptIsOk (convertECGLeads pipeMixed 0 paramsTwoLeads) = false :=
  ⟨by with_unfolding_all decide, by with_unfolding_all decide,
   claim2_amended pipeMixed 0 paramsTwoLeads
     (by with_unfolding_all decide) (by with_unfolding_all decide)⟩

/-- Claim C2 (counterexample): with lead 0 extracting successfully and
lead 1 failing, `convertECGLeads` raises `AttributeError` instead of
omitting lead 1 and returning lead 0's signal. -/
theorem claim2_counterexample :
    convSignals pipeMixed 0 paramsTwoLeads =
      [(0, .ok [some 5]), (1, .failure "bad lead")] ∧
    convertECGLeads pipeMixed 0 paramsTwoLeads =
      .error "AttributeError: 'Failure' object has no attribute 'shape'" :=
  ⟨by with_unfolding_all decide, by with_unfolding_all decide⟩

/-! ## Claims C5 and C6 -/

/-- Right membership along a pointwise relation. -/
theorem forall₂_mem_right {α β : Type} {R : α → β → Prop} :
    ∀ {l : List α} {r : List β}, List.Forall₂ R l r → ∀ b ∈ r, ∃ a ∈ l, R a b := by
  intro l r h
  induction h with
  | nil => intro b hb; exact absurd hb (List.not_mem_nil b)
  | cons hab htail ih =>
    intro b hb
    rcases List.mem_cons.mp hb with rfl | hb
    · exact ⟨_, by simp, hab⟩
    · rcases ih b hb with ⟨a, ha, hr⟩
      exact ⟨a, by simp [ha], hr⟩

/-- Inversion of a successful `padRight`. -/
theorem padRight_ok (l : List (Option ℚ)) (c : ℤ) (r : List (Option ℚ))
    (h : padRight l c = .ok r) :
    0 ≤ c ∧ r = l ++ List.replicate c.toNat (some 0) := by
  unfold padRight at h
  by_cases hc : c < 0
  · rw [if_pos hc] at h; exact absurd h (by simp)
  · rw [if_neg hc] at h
    refine ⟨by omega, ?_⟩
    exact (Except.ok.inj h).symm

/-- Inversion of a successful `padLeft`. -/
theorem padLeft_ok (l : List (Option ℚ)) (c : ℤ) (r : List (Option ℚ))
    (h : padLeft l c = .ok r) :
    0 ≤ c ∧ r = List.replicate c.toNat (some 0) ++ l := by
  unfold padLeft at h
  by_cases hc : c < 0
  · rw [if_pos hc] at h; exact absurd h (by simp)
  · rw [if_neg hc] at h
    refine ⟨by omega, ?_⟩
    exact (Except.ok.inj h).symm

/-- Inversion of a successful `convPadOne`: the lead exists, the sampling
period is nonzero, and the pad is `int(startTime / T)` zeros. -/
theorem convPadOne_ok (params : InputParameters) (T : ℚ) (id : ℕ)
    (sig r : List (Option ℚ)) (h : convPadOne params T id sig = .ok r) :
    ∃ lead, params.leads.lookup id = some lead ∧ T ≠ 0 ∧
      r = List.replicate (pyTrunc (lead.startTime / T)).toNat (some 0) ++ sig := by
  unfold convPadOne at h
  cases hlk : params.leads.lookup id with
  | none => rw [hlk] at h; exact absurd h (by simp)
  | some lead =>
    rw [hlk] at h
    dsimp only at h
    unfold pyDiv at h
    by_cases hT : T = 0
    · rw [if_pos hT, exbind_error] at h; exact absurd h (by simp)
    · rw [if_neg hT, exbind_ok] at h
      exact ⟨lead, rfl, hT, (padLeft_ok _ _ _ h).2⟩

/-- A successful `convertECGLeads` run's signal dictionary comes from
`convFullSignals`. -/
theorem convertECGLeads_ok_sigs {Img : Type} (P : Pipeline Img) (img : Img)
    (params : InputParameters) (out : List (ℕ × List (Option ℚ))) (pv : PrevOut)
    (h : convertECGLeads P img params = .ok (.sigs out, pv)) :
    convFullSignals P img params = .ok out := by
  unfold convertECGLeads at h
  by_cases hfail : (convSignals P img params).all (fun p => p.2.isFailure) = true
  · rw [if_pos hfail] at h; simp at h
  · rw [if_neg hfail] at h
    cases hpr : convPreviews (convSignals P img params) with
    | error e => rw [hpr, exbind_error] at h; simp at h
    | ok pr =>
      rw [hpr, exbind_ok] at h
      by_cases hsp : (convSpacings (convGrids P img params)).length = 0
      · rw [if_pos hsp] at h; simp at h
      · rw [if_neg hsp] at h
        cases hfull : convFullSignals P img params with
        | error e => rw [hfull, exbind_error] at h; simp at h
        | ok full =>
          rw [hfull, exbind_ok] at h
          simp only [Except.ok.injEq, Prod.mk.injEq] at h
          have hfo : full = out := by
            have h1 := h.1
            exact ConvOut.sigs.inj h1
          exact congrArg Except.ok hfo

/-- Inversion of a successful `convFullSignals`: the padded signals exist,
are nonempty, and the output is their `padRight` to the maximal length. -/
theorem convFullSignals_ok {Img : Type} (P : Pipeline Img) (img : Img)
    (params : InputParameters) (out : List (ℕ × List (Option ℚ)))
    (h : convFullSignals P img params = .ok out) :
    ∃ padded : List (ℕ × List (Option ℚ)),
      convPaddedSignals P img params = .ok padded ∧ padded ≠ [] ∧
      padded.mapM (rightPadTo ((padded.map (fun q => q.2.length)).foldl max 0)) =
        .ok out := by
  unfold convFullSignals at h
  cases hp : convPaddedSignals P img params with
  | error e => rw [hp, exbind_error] at h; simp at h
  | ok padded =>
    rw [hp, exbind_ok] at h
    cases padded with
    | nil => simp at h
    | cons a t => exact ⟨a :: t, rfl, by simp, h⟩

set_option maxRecDepth 100000 in
/-- Claim C6: whenever `convertECGLeads` returns a signal dictionary, all
its signal arrays have the same length (each equals the maximal padded
length). -/
theorem claim6_equal_lengths {Img : Type} (P : Pipeline Img) (img : Img)
    (params : InputParameters) (out : List (ℕ × List (Option ℚ))) (pv : PrevOut)
    (h : convertECGLeads P img params = .ok (.sigs out, pv)) :
    ∀ p ∈ out, ∀ q ∈ out, p.2.length = q.2.length := by
  obtain ⟨padded, _, _, hmap⟩ :=
    convFullSignals_ok P img params out (convertECGLeads_ok_sigs P img params out pv h)
  have hrel := mapM_ok_forall₂ _ _ _ hmap
  have hlen : ∀ b ∈ out, b.2.length =
      (padded.map (fun q => q.2.length)).foldl max 0 := by
    intro b hb
    obtain ⟨a, ha, hab⟩ := forall₂_mem_right hrel b hb
    unfold rightPadTo at hab
    cases hpr : padRight a.2
        ((((padded.map (fun q => q.2.length)).foldl max 0 : ℕ) : ℤ) - (a.2.length : ℤ)) with
    | error e => rw [hpr, exbind_error] at hab; exact absurd hab (by simp)
    | ok full =>
      rw [hpr, exbind_ok] at hab
      have hb2 : b = (a.1, full) := (Except.ok.inj hab).symm
      obtain ⟨hc, hfull⟩ := padRight_ok _ _ _ hpr
      have hle : a.2.length ≤ (padded.map (fun q => q.2.length)).foldl max 0 := by
        have := (le_foldl_max (padded.map (fun q => q.2.length)) 0).1 a.2.length
          (List.mem_map_of_mem _ ha)
        exact this
      rw [hb2]
      simp only [hfull, List.length_append, List.length_replicate]
      omega
  intro p hp q hq
  rw [hlen p hp, hlen q hq]

/-- Claim C6 (witness): the equal-length statement on a concrete run with
two successful leads whose raw signals have different lengths. -/
theorem claim6_witness :
    convertECGLeads pipeTwoOk 0 paramsTwoLeads =
      .ok (.sigs [(0, [some 0, some (-100)]), (1, [some 0, some 0])],
           .prevs [(0, ()), (1, ())]) ∧
    (∀ p ∈ [((0 : ℕ), [some (0 : ℚ), some (-100)]), (1, [some 0, some 0])],
     ∀ q ∈ [((0 : ℕ), [some (0 : ℚ), some (-100)]), (1, [some 0, some 0])],
       p.2.length = q.2.length) := by
  have h : convertECGLeads pipeTwoOk 0 paramsTwoLeads =
      .ok (.sigs [(0, [some 0, some (-100)]), (1, [some 0, some 0])],
           .prevs [(0, ()), (1, ())]) := by
    with_unfolding_all decide
  exact ⟨h, claim6_equal_lengths pipeTwoOk 0 paramsTwoLeads _ _ h⟩

/-- Inversion of a successful `convPaddedSignals`. -/
theorem convPaddedSignals_ok {Img : Type} (P : Pipeline Img) (img : Img)
    (params : InputParameters) (padded : List (ℕ × List (Option ℚ)))
    (h : convPaddedSignals P img params = .ok padded) :
    ∃ (scaled : List (ℕ × List (Option ℚ))) (T : ℚ),
      convScaledSignals P img params = .ok scaled ∧
      convSamplingPeriod P img params = .ok T ∧
      scaled.mapM (padOnePair params T) = .ok padded := by
  unfold convPaddedSignals at h
  cases hsc : convScaledSignals P img params with
  | error e => rw [hsc, exbind_error] at h; simp at h
  | ok scaled =>
    rw [hsc, exbind_ok] at h
    cases hT : convSamplingPeriod P img params with
    | error e => rw [hT, exbind_error] at h; simp at h
    | ok T =>
      rw [hT, exbind_ok] at h
      exact ⟨scaled, T, rfl, rfl, h⟩

set_option maxRecDepth 100000 in
/-- Claim C5 (counterexample): with grid period `1/2` px and
`timeScale = 1` the sampling period is 2, and a lead with `startTime = 3`
(ratio `3/2`) is left-padded with `int(3/2) = 1` zero sample, not
`round(3/2) = 2`: the 3-sample scaled signal comes back with total length
4, while the claim predicts `3 + round(3/2) = 5`. -/
theorem claim5_counterexample :
    convertECGLeads pipePad () paramsPad =
      .ok (.sigs [(0, [some 0, some 0, some 0, some 0])], .prevs [(0, ())]) ∧
    convSamplingPeriod pipePad () paramsPad = .ok 2 ∧
    pyTrunc ((3 : ℚ) / 2) = 1 ∧ round ((3 : ℚ) / 2) = 2 ∧
    ([some (0 : ℚ), some 0, some 0, some 0].length : ℤ) ≠ 3 + round ((3 : ℚ) / 2) :=
  ⟨by with_unfolding_all decide, by with_unfolding_all decide,
   by with_unfolding_all decide, by with_unfolding_all decide,
   by with_unfolding_all decide⟩

/-- Claim C5 (amended): in every successful run, the number of zero
samples prepended to a lead's scaled signal is
`int(startTime / sampling_period)` — truncation toward zero, not
`round` — where the sampling period is computed once from the mean grid
period and the time scale. -/
theorem claim5_amended {Img : Type} (P : Pipeline Img) (img : Img)
    (params : InputParameters) (out : List (ℕ × List (Option ℚ))) (pv : PrevOut)
    (T : ℚ)
    (h : convertECGLeads P img params = .ok (.sigs out, pv))
    (hT : convSamplingPeriod P img params = .ok T) :
    ∀ b ∈ out, ∃ (lead : Lead) (scaledSig : List (Option ℚ)) (m : ℕ),
      params.leads.lookup b.1 = some lead ∧
      (∃ a ∈ convSignals P img params, a.1 = b.1 ∧
        convScaledOne (convGridHeight P img params) params.voltScale a.2 = .ok scaledSig) ∧
      b.2 = List.replicate (pyTrunc (lead.startTime / T)).toNat (some 0) ++
        (scaledSig ++ List.replicate m (some 0)) := by
  obtain ⟨padded, hpad, _, hmapfull⟩ :=
    convFullSignals_ok P img params out (convertECGLeads_ok_sigs P img params out pv h)
  obtain ⟨scaled, T', hscaled, hT', hmappad⟩ := convPaddedSignals_ok P img params padded hpad
  have hTT : T' = T := by
    rw [hT'] at hT
    exact Except.ok.inj hT
  subst hTT
  intro b hb
  obtain ⟨pd, hpd, hpdb⟩ := forall₂_mem_right (mapM_ok_forall₂ _ _ _ hmapfull) b hb
  unfold rightPadTo at hpdb
  cases hpr : padRight pd.2
      ((((padded.map (fun q => q.2.length)).foldl max 0 : ℕ) : ℤ) - (pd.2.length : ℤ)) with
  | error e => rw [hpr, exbind_error] at hpdb; exact absurd hpdb (by simp)
  | ok full =>
    rw [hpr, exbind_ok] at hpdb
    have hb2 : b = (pd.1, full) := (Except.ok.inj hpdb).symm
    obtain ⟨_, hfull⟩ := padRight_ok _ _ _ hpr
    obtain ⟨sc, hsc, hscpd⟩ := forall₂_mem_right (mapM_ok_forall₂ _ _ _ hmappad) pd hpd
    unfold padOnePair at hscpd
    cases hcp : convPadOne params T' sc.1 sc.2 with
    | error e => rw [hcp, exbind_error] at hscpd; exact absurd hscpd (by simp)
    | ok pdSig =>
      rw [hcp, exbind_ok] at hscpd
      have hpd2 : pd = (sc.1, pdSig) := (Except.ok.inj hscpd).symm
      obtain ⟨lead, hlk, _, hpdSig⟩ := convPadOne_ok params T' sc.1 sc.2 pdSig hcp
      have hscaled' := hscaled
      unfold convScaledSignals at hscaled'
      obtain ⟨a, ha, hasc⟩ := forall₂_mem_right (mapM_ok_forall₂ _ _ _ hscaled') sc hsc
      unfold scaleOnePair at hasc
      cases hso : convScaledOne (convGridHeight P img params) params.voltScale a.2 with
      | error e => rw [hso, exbind_error] at hasc; exact absurd hasc (by simp)
      | ok sSig =>
        rw [hso, exbind_ok] at hasc
        have hsc2 : sc = (a.1, sSig) := (Except.ok.inj hasc).symm
        refine ⟨lead, sSig,
          ((((padded.map (fun q => q.2.length)).foldl max 0 : ℕ) : ℤ) -
            (pd.2.length : ℤ)).toNat, ?_, ⟨a, ha, ?_, hso⟩, ?_⟩
        · rw [hb2]
          simp only [hpd2, hsc2] at hlk ⊢
          exact hlk
        · rw [hb2, hpd2, hsc2]
        · rw [hb2]
          dsimp only
          rw [hfull]
          generalize List.replicate
            ((((padded.map (fun q => q.2.length)).foldl max 0 : ℕ) : ℤ) -
              (pd.2.length : ℤ)).toNat (some (0 : ℚ)) = R
          rw [hpd2]
          dsimp only
          rw [hpdSig, hsc2]
          dsimp only
          rw [List.append_assoc]

set_option maxRecDepth 100000 in
/-- Claim C5 (witness): the amended statement on the concrete run of the
counterexample pipeline. -/
theorem claim5_witness :
    convertECGLeads pipePad () paramsPad =
      .ok (.sigs [(0, [some 0, some 0, some 0, some 0])], .prevs [(0, ())]) ∧
    convSamplingPeriod pipePad () paramsPad = .ok 2 ∧
    (∀ b ∈ [((0 : ℕ), [some (0 : ℚ), some 0, some 0, some 0])],
      ∃ (lead : Lead) (scaledSig : List (Option ℚ)) (m : ℕ),
        paramsPad.leads.lookup b.1 = some lead ∧
        (∃ a ∈ convSignals pipePad () paramsPad, a.1 = b.1 ∧
          convScaledOne (convGridHeight pipePad () paramsPad) paramsPad.voltScale a.2 =
            .ok scaledSig) ∧
        b.2 = List.replicate (pyTrunc (lead.startTime / 2)).toNat (some 0) ++
          (scaledSig ++ List.replicate m (some 0))) := by
  have h1 : convertECGLeads pipePad () paramsPad =
      .ok (.sigs [(0, [some 0, some 0, some 0, some 0])], .prevs [(0, ())]) := by
    with_unfolding_all decide
  have h2 : convSamplingPeriod pipePad () paramsPad = .ok 2 := by
    with_unfolding_all decide
  exact ⟨h1, h2, claim5_amended pipePad () paramsPad _ _ 2 h1 h2⟩

/-! ## Claims C10 and C3: the Viterbi extraction terminates normally

The development below proves that `extractSignal` returns `ok` on every
image with at least one candidate point, and characterises the shape of
the returned signal (its length is one more than the ending column of the
chosen path, and its `NaN` entries are exactly the columns left of the
path's starting column). -/

theorem exceptIsOk_true_iff {ε α : Type} (x : Except ε α) :
    exceptIsOk x = true ↔ ∃ a, x = .ok a := by
  cases x <;> simp [exceptIsOk]

/-- `round` is the identity on natural casts. -/
theorem pyRound_natCast (c : ℕ) : pyRound ((c : ℚ)) = (c : ℤ) := by
  simp only [pyRound, Int.floor_natCast]
  norm_num

/-- `round` is the identity on integer casts. -/
theorem pyRound_intCast (z : ℤ) : pyRound ((z : ℚ)) = z := by
  simp only [pyRound, Int.floor_intCast]
  norm_num

/-- There is one candidate column per image column. -/
theorem getPointLocations_length (img : List (List ℕ)) :
    (getPointLocations img).length = imgWidth img := by
  simp [getPointLocations]

/-- A point of candidate column `c` has `x`-coordinate `c`. -/
theorem x_of_mem_col (img : List (List ℕ)) (c : ℕ)
    (hc : c < (getPointLocations img).length) (p : Point)
    (hp : p ∈ (getPointLocations img)[c]) : p.x = (c : ℚ) := by
  simp only [getPointLocations, List.getElem_map, List.getElem_range,
    List.mem_map] at hp
  obtain ⟨row, _, rfl⟩ := hp
  rfl

/-- A point of a prefix of the candidate columns has a natural
`x`-coordinate naming a column below the cut and below the width. -/
theorem mem_take_getPointLocations (img : List (List ℕ)) (k : ℕ) (p : Point)
    (hp : p ∈ flattenL ((getPointLocations img).take k)) :
    ∃ c : ℕ, c < k ∧ c < imgWidth img ∧ p.x = (c : ℚ) := by
  unfold getPointLocations flattenL at hp
  rw [← List.map_take, List.take_range, List.mem_flatten] at hp
  obtain ⟨s, hs, hps⟩ := hp
  rw [List.mem_map] at hs
  obtain ⟨c, hc, rfl⟩ := hs
  rw [List.mem_range] at hc
  rw [List.mem_map] at hps
  obtain ⟨row, _, rfl⟩ := hps
  exact ⟨c, by omega, by omega, rfl⟩

/-- Flattening a prefix yields a subset of flattening the whole list. -/
theorem flattenL_take_subset {α : Type} (l : List (List α)) (k : ℕ) (x : α)
    (hx : x ∈ flattenL (l.take k)) : x ∈ flattenL l := by
  unfold flattenL at *
  rw [List.mem_flatten] at *
  obtain ⟨s, hs, hxs⟩ := hx
  exact ⟨s, List.take_subset k l hs, hxs⟩

/-- Flattened prefixes grow with the cut. -/
theorem flattenL_take_mono {α : Type} (l : List (List α)) {j k : ℕ} (hjk : j ≤ k)
    (x : α) (hx : x ∈ flattenL (l.take j)) : x ∈ flattenL (l.take k) := by
  unfold flattenL at *
  rw [List.mem_flatten] at *
  obtain ⟨s, hs, hxs⟩ := hx
  refine ⟨s, ?_, hxs⟩
  have h : l.take j = (l.take k).take j := by
    rw [List.take_take, Nat.min_eq_left hjk]
  rw [h] at hs
  exact List.take_subset _ _ hs

/-- A slice with nonnegative right bound sits inside the matching prefix. -/
theorem pySlice_subset_take {α : Type} (l : List α) (a b : ℤ) (hb : 0 ≤ b) (x : α)
    (hx : x ∈ pySlice l a b) : x ∈ l.take b.toNat := by
  simp only [pySlice] at hx
  have hx' := List.drop_subset _ _ hx
  rw [if_neg (by omega)] at hx'
  have hmin : (min b (l.length : ℤ)).toNat ≤ b.toNat := by omega
  have h2 : l.take ((min b (l.length : ℤ)).toNat) =
      (l.take b.toNat).take ((min b (l.length : ℤ)).toNat) := by
    rw [List.take_take, Nat.min_eq_left hmin]
  rw [h2] at hx'
  exact List.take_subset _ _ hx'

/-- The slice `l[0:len(l)]` is `l` itself. -/
theorem pySlice_zero_length {α : Type} (l : List α) :
    pySlice l 0 (l.length : ℤ) = l := by
  unfold pySlice
  have h0 : ¬ ((0 : ℤ) < 0) := by omega
  have hn : ¬ ((l.length : ℤ) < 0) := by omega
  simp only [if_neg h0, if_neg hn]
  have h1 : (min ((l.length : ℤ)) ((l.length : ℤ))).toNat = l.length := by omega
  have h2 : (min (0 : ℤ) ((l.length : ℤ))).toNat = 0 := by omega
  rw [h1, h2, List.take_length, List.drop_zero]

/-- Elements of a flattened slice lie in the flattened prefix. -/
theorem mem_flattenL_slice {α : Type} (l : List (List α)) (a b : ℤ) (hb : 0 ≤ b)
    (x : α) (hx : x ∈ flattenL (pySlice l a b)) : x ∈ flattenL (l.take b.toNat) := by
  unfold flattenL at *
  rw [List.mem_flatten] at *
  obtain ⟨s, hs, hxs⟩ := hx
  exact ⟨s, pySlice_subset_take l a b hb s hs, hxs⟩

/-- Whatever the fuel, the window loop only produces points left of the
right bound. -/
theorem getAdjacentLoop_subset (cols : List (List Point)) (right : ℤ)
    (hr : 0 ≤ right) :
    ∀ (fuel : ℕ) (left : ℤ) (x : Point),
      x ∈ getAdjacentLoop cols right fuel left →
      x ∈ flattenL (cols.take right.toNat) := by
  intro fuel
  induction fuel with
  | zero =>
    intro left x hx
    exact mem_flattenL_slice cols left right hr x hx
  | succ f ih =>
    intro left x hx
    simp only [getAdjacentLoop] at hx
    by_cases hc : (flattenL (pySlice cols left right)).isEmpty = true ∧ 0 ≤ left
    · rw [if_pos hc] at hx
      exact ih (left - 1) x hx
    · rw [if_neg hc] at hx
      exact mem_flattenL_slice cols left right hr x hx

/-- With enough fuel and a window that is nonempty when fully widened, the
window loop returns a nonempty list. -/
theorem getAdjacentLoop_ne_nil (cols : List (List Point)) (right : ℤ)
    (hne : flattenL (pySlice cols 0 right) ≠ []) :
    ∀ (fuel : ℕ) (left : ℤ), 0 ≤ left → left.toNat < fuel →
      getAdjacentLoop cols right fuel left ≠ [] := by
  intro fuel
  induction fuel with
  | zero => intro left h0 h1; omega
  | succ f ih =>
    intro left h0 h1
    simp only [getAdjacentLoop]
    by_cases hc : (flattenL (pySlice cols left right)).isEmpty = true ∧ 0 ≤ left
    · rw [if_pos hc]
      have hl : left ≠ 0 := by
        rintro rfl
        exact hne (List.isEmpty_iff.mp hc.1)
      exact ih (left - 1) (by omega) (by omega)
    · rw [if_neg hc]
      intro hnil
      exact hc ⟨by simp [hnil], h0⟩

/-- The transition cost is defined whenever the candidate differs from the
current point in `x`. -/
theorem score_ok (cur cand : Point) (ang : ℝ) (hx : cand.x ≠ cur.x) :
    ∃ v, score cur cand ang = .ok v := by
  unfold score angleBetweenPoints angleFromOffsets
  rw [if_neg ?hnz]
  case hnz =>
    rw [euclideanDistance_eq_zero_iff]
    rintro ⟨h1, _⟩
    exact hx ((sub_eq_zero.mp h1).symm)
  exact ⟨_, rfl⟩

/-- The angle between two points differing in `x` is defined. -/
theorem angleBetweenPoints_ok (a b : Point) (hx : a.x ≠ b.x) :
    ∃ v, angleBetweenPoints a b = .ok v := by
  unfold angleBetweenPoints angleFromOffsets
  rw [if_neg ?hnz]
  case hnz =>
    rw [euclideanDistance_eq_zero_iff]
    rintro ⟨h1, _⟩
    exact hx ((sub_eq_zero.mp h1).symm)
  exact ⟨_, rfl⟩

/-- The running minimum of a fold stays inside the list. -/
theorem foldlMin_mem : ∀ (t : List (ℝ × Point)) (h : ℝ × Point),
    t.foldl (fun acc x => if x.1 < acc.1 then x else acc) h ∈ h :: t := by
  intro t
  induction t with
  | nil => intro h; simp
  | cons x t' ih =>
    intro h
    rw [List.foldl_cons]
    by_cases hc : x.1 < h.1
    · rw [if_pos hc]
      exact List.mem_cons_of_mem h (ih x)
    · rw [if_neg hc]
      rcases List.mem_cons.mp (ih h) with h1 | h1
      · rw [h1]; exact List.mem_cons_self h _
      · exact List.mem_cons_of_mem _ (List.mem_cons_of_mem _ h1)

/-- Python `min` on a nonempty list succeeds and returns an element. -/
theorem pyMinByFirst_ok (l : List (ℝ × Point)) (hne : l ≠ []) :
    ∃ r, pyMinByFirst l = .ok r ∧ r ∈ l := by
  cases l with
  | nil => exact absurd rfl hne
  | cons h t => exact ⟨_, rfl, foldlMin_mem t h⟩

/-- Updating one key keeps every recorded key recorded. -/
theorem dictInsert_isSome_mono (d : BestPath) (p : Point)
    (r : ℝ × Option Point × ℝ) (q : Point) (hq : (d q).isSome = true) :
    ((dictInsert d p r) q).isSome = true := by
  simp only [dictInsert]
  by_cases h : q = p
  · rw [if_pos h]; rfl
  · rw [if_neg h]; exact hq

/-- The updated key is recorded. -/
theorem dictInsert_self (d : BestPath) (p : Point) (r : ℝ × Option Point × ℝ) :
    dictInsert d p r p = some r := by
  simp [dictInsert]

/-- Other keys are unchanged by an update. -/
theorem dictInsert_other (d : BestPath) (p q : Point) (r : ℝ × Option Point × ℝ)
    (h : q ≠ p) : dictInsert d p r q = d q := by
  simp [dictInsert, h]

/-- A `mapM` over `Except` whose every element succeeds returns a list
related pointwise to the input. -/
theorem mapM_ok_of_all {α β : Type} (f : α → Except String β) (l : List α)
    (h : ∀ a ∈ l, ∃ b, f a = .ok b) :
    ∃ r, l.mapM f = .ok r ∧ List.Forall₂ (fun a b => f a = .ok b) l r := by
  have hok : exceptIsOk (l.mapM f) = true := by
    rw [exceptIsOk_mapM]
    apply List.all_eq_true.mpr
    intro a ha
    obtain ⟨b, hb⟩ := h a ha
    rw [hb]; rfl
  obtain ⟨r, hr⟩ := (exceptIsOk_true_iff _).mp hok
  exact ⟨r, hr, mapM_ok_forall₂ _ _ _ hr⟩

/-- `getAdjacent` succeeds when the whole window is recorded, pairing each
window point with its record. -/
theorem getAdjacent_ok (cols : List (List Point)) (d : BestPath) (sc mlb : ℤ)
    (hdom : ∀ q ∈ getAdjacentLoop cols sc
        ((lowerClamp (sc - mlb) 0) + 2).toNat (lowerClamp (sc - mlb) 0),
      (d q).isSome = true) :
    ∃ out, getAdjacent cols d sc mlb = .ok out ∧
      List.Forall₂ (fun q t => adjacentEntry d q = .ok t)
        (getAdjacentLoop cols sc ((lowerClamp (sc - mlb) 0) + 2).toNat
          (lowerClamp (sc - mlb) 0)) out := by
  have hall : ∀ q ∈ getAdjacentLoop cols sc
      ((lowerClamp (sc - mlb) 0) + 2).toNat (lowerClamp (sc - mlb) 0),
      ∃ b, adjacentEntry d q = .ok b := by
    intro q hq
    have hs := hdom q hq
    unfold adjacentEntry
    cases hdq : d q with
    | none => rw [hdq] at hs; exact absurd hs (by simp)
    | some r => exact ⟨_, rfl⟩
  obtain ⟨out, hout, hrel⟩ := mapM_ok_of_all (adjacentEntry d) _ hall
  exact ⟨out, hout, hrel⟩

/-- Processing a point of column `c` succeeds when every point of the
earlier columns is recorded, and installs a record whose predecessor (if
any) is a candidate point of a strictly earlier column. -/
theorem processPoint_ok (img : List (List ℕ)) (d : BestPath) (p : Point) (c : ℕ)
    (hpx : p.x = (c : ℚ))
    (hdom : DomUpTo (getPointLocations img) d c)
    (hback : BackLinks (getPointLocations img) d) :
    ∃ r, processPoint (getPointLocations img) d p = .ok (dictInsert d p r) ∧
      BackLinks (getPointLocations img) (dictInsert d p r) := by
  have hidx : p.index = (c : ℤ) := by rw [Point.index, hpx, pyRound_natCast]
  have hsub : ∀ q ∈ getAdjacentLoop (getPointLocations img) ((c : ℤ))
      ((lowerClamp ((c : ℤ) - 1) 0) + 2).toNat (lowerClamp ((c : ℤ) - 1) 0),
      q ∈ flattenL ((getPointLocations img).take c) := by
    intro q hq
    have h := getAdjacentLoop_subset (getPointLocations img) ((c : ℤ)) (by omega)
      _ _ q hq
    simpa using h
  have hdomLoop : ∀ q ∈ getAdjacentLoop (getPointLocations img) ((c : ℤ))
      ((lowerClamp ((c : ℤ) - 1) 0) + 2).toNat (lowerClamp ((c : ℤ) - 1) 0),
      (d q).isSome = true := fun q hq => hdom q (hsub q hq)
  obtain ⟨out, hga, hrel⟩ := getAdjacent_ok (getPointLocations img) d ((c : ℤ)) 1 hdomLoop
  have hfacts : ∀ t ∈ out, t.2.1 ∈ flattenL ((getPointLocations img).take c) ∧
      ∃ cq : ℕ, cq < c ∧ t.2.1.x = (cq : ℚ) := by
    intro t ht
    obtain ⟨q, hqloop, hqt⟩ := forall₂_mem_right hrel t ht
    unfold adjacentEntry at hqt
    cases hdq : d q with
    | none => rw [hdq] at hqt; exact absurd hqt (by simp)
    | some r =>
      rw [hdq] at hqt
      injection hqt with h
      subst h
      have hq' := hsub q hqloop
      obtain ⟨cq, hcq1, -, hcqx⟩ := mem_take_getPointLocations img c q hq'
      exact ⟨hq', cq, hcq1, hcqx⟩
  have hga' : getAdjacent (getPointLocations img) d p.index 1 = .ok out := by
    rw [hidx]; exact hga
  unfold processPoint
  rw [hga', exbind_ok]
  cases out with
  | nil =>
    refine ⟨((0 : ℝ), none, (0 : ℝ)), rfl, ?_⟩
    intro p' s q a hp'
    by_cases hpp : p' = p
    · subst hpp
      rw [dictInsert_self] at hp'
      simp at hp'
    · rw [dictInsert_other d p p' _ hpp] at hp'
      exact hback p' s q a hp'
  | cons t0 rest =>
    have hallok : ∀ t ∈ t0 :: rest, ∃ b, scoredEntry p t = .ok b := by
      intro t ht
      obtain ⟨-, cq, hcq, hcqx⟩ := hfacts t ht
      have hxne : t.2.1.x ≠ p.x := by
        rw [hcqx, hpx]
        intro hcast
        have hcc : cq = c := by exact_mod_cast hcast
        omega
      obtain ⟨v, hv⟩ := score_ok p t.2.1 t.2.2 hxne
      unfold scoredEntry
      rw [hv, exbind_ok]
      exact ⟨_, rfl⟩
    obtain ⟨scored, hsc, hscrel⟩ := mapM_ok_of_all (scoredEntry p) (t0 :: rest) hallok
    have hscne : scored ≠ [] := by
      cases hscrel with
      | cons hb htail => simp
    obtain ⟨best, hmin, hbestmem⟩ := pyMinByFirst_ok scored hscne
    obtain ⟨t1, ht1, ht1b⟩ := forall₂_mem_right hscrel best hbestmem
    obtain ⟨ht1mem, cq, hcq, hcqx⟩ := hfacts t1 ht1
    have hb2 : best.2 = t1.2.1 := by
      unfold scoredEntry at ht1b
      cases hsv : score p t1.2.1 t1.2.2 with
      | error e => rw [hsv, exbind_error] at ht1b; exact absurd ht1b (by simp)
      | ok v =>
        rw [hsv, exbind_ok] at ht1b
        injection ht1b with h
        rw [← h]
    have hxne : best.2.x ≠ p.x := by
      rw [hb2, hcqx, hpx]
      intro hcast
      have hcc : cq = c := by exact_mod_cast hcast
      omega
    obtain ⟨angle, hang⟩ := angleBetweenPoints_ok best.2 p hxne
    refine ⟨(best.1, some best.2, angle), ?_, ?_⟩
    · show ((t0 :: rest).mapM (scoredEntry p) >>= fun scored =>
          (pyMinByFirst scored >>= fun best =>
            (angleBetweenPoints best.2 p >>= fun angle =>
              Except.ok (dictInsert d p (best.1, some best.2, angle))))) =
        Except.ok (dictInsert d p (best.1, some best.2, angle))
      rw [hsc, exbind_ok, hmin, exbind_ok, hang, exbind_ok]
    · intro p' s q a hp'
      by_cases hpp : p' = p
      · subst hpp
        rw [dictInsert_self] at hp'
        injection hp' with h
        have hq : q = best.2 := by
          have h21 := congrArg (fun z => z.2.1) h
          simpa using h21.symm
        rw [hq, hb2]
        exact ⟨flattenL_take_subset _ c _ ht1mem, cq, c, hcqx, hpx, hcq⟩
      · rw [dictInsert_other d p p' _ hpp] at hp'
        exact hback p' s q a hp'

/-- Folding `processPoint` over points of column `c` succeeds, records the
whole sub-list, and preserves earlier records and back links. -/
theorem foldPoints_ok (img : List (List ℕ)) (c : ℕ) :
    ∀ (sub : List Point), (∀ p ∈ sub, p.x = (c : ℚ)) →
    ∀ (d : BestPath), DomUpTo (getPointLocations img) d c →
    BackLinks (getPointLocations img) d →
    ∃ d2, sub.foldlM (processPoint (getPointLocations img)) d = .ok d2 ∧
      (∀ p, (d p).isSome = true → (d2 p).isSome = true) ∧
      (∀ p ∈ sub, (d2 p).isSome = true) ∧
      BackLinks (getPointLocations img) d2 := by
  intro sub
  induction sub with
  | nil =>
    intro hsubx d hdom hback
    exact ⟨d, rfl, fun p hp => hp, fun p hp => absurd hp (List.not_mem_nil p), hback⟩
  | cons p rest ih =>
    intro hsubx d hdom hback
    obtain ⟨r, hpp, hback1⟩ := processPoint_ok img d p c (hsubx p (by simp)) hdom hback
    have hdom1 : DomUpTo (getPointLocations img) (dictInsert d p r) c := by
      intro q hq
      exact dictInsert_isSome_mono d p r q (hdom q hq)
    obtain ⟨d2, hfold, hmono, hrec, hback2⟩ := ih (fun q hq => hsubx q (by simp [hq]))
      (dictInsert d p r) hdom1 hback1
    refine ⟨d2, ?_, ?_, ?_, hback2⟩
    · rw [List.foldlM_cons, hpp, exbind_ok]
      exact hfold
    · intro q hq
      exact hmono q (dictInsert_isSome_mono d p r q hq)
    · intro q hq
      rcases List.mem_cons.mp hq with rfl | hq
      · exact hmono q (by rw [dictInsert_self]; rfl)
      · exact hrec q hq

/-- Folding the per-column DP over all columns from `k` on succeeds and
ends with every candidate point recorded. -/
theorem foldCols_ok (img : List (List ℕ)) :
    ∀ (m k : ℕ), m = (getPointLocations img).length - k →
    ∀ (d : BestPath), DomUpTo (getPointLocations img) d k →
    BackLinks (getPointLocations img) d →
    ∃ dF, ((getPointLocations img).drop k).foldlM
        (fun d column => column.foldlM (processPoint (getPointLocations img)) d)
        d = .ok dF ∧
      DomUpTo (getPointLocations img) dF (getPointLocations img).length ∧
      BackLinks (getPointLocations img) dF := by
  intro m
  induction m with
  | zero =>
    intro k hm d hdom hback
    have hge : (getPointLocations img).length ≤ k := by omega
    rw [List.drop_eq_nil_of_le hge]
    refine ⟨d, rfl, ?_, hback⟩
    intro q hq
    exact hdom q (flattenL_take_mono _ hge q hq)
  | succ n ihn =>
    intro k hm d hdom hback
    have hklt : k < (getPointLocations img).length := by omega
    rw [List.drop_eq_getElem_cons hklt, List.foldlM_cons]
    have hsubx : ∀ p ∈ (getPointLocations img)[k], p.x = (k : ℚ) :=
      fun p hp => x_of_mem_col img k hklt p hp
    obtain ⟨d1, hfold1, hmono1, hrec1, hback1⟩ := foldPoints_ok img k _ hsubx d hdom hback
    rw [hfold1, exbind_ok]
    have hdom1 : DomUpTo (getPointLocations img) d1 (k + 1) := by
      intro q hq
      rw [List.take_succ] at hq
      unfold flattenL at hq
      rw [List.flatten_append] at hq
      rcases List.mem_append.mp hq with h1 | h2
      · exact hmono1 q (hdom q h1)
      · have hqk : q ∈ (getPointLocations img)[k] := by
          rw [List.getElem?_eq_getElem hklt] at h2
          simpa using h2
        exact hrec1 q hqk
    exact ihn (k + 1) (by omega) d1 hdom1 hback1

/-- A fold of seed insertions records its whole column and keeps earlier
records. -/
theorem foldl_seed_isSome (col : List Point) :
    ∀ (d : BestPath) (p : Point), ((d p).isSome = true ∨ p ∈ col) →
    ((col.foldl (fun d point => dictInsert d point ((0 : ℝ), none, (0 : ℝ))) d)
      p).isSome = true := by
  induction col with
  | nil =>
    intro d p hp
    rcases hp with h | h
    · exact h
    · exact absurd h (List.not_mem_nil p)
  | cons q rest ih =>
    intro d p hp
    rw [List.foldl_cons]
    apply ih
    rcases hp with h | h
    · exact Or.inl (dictInsert_isSome_mono d q _ p h)
    · rcases List.mem_cons.mp h with rfl | h2
      · exact Or.inl (by rw [dictInsert_self]; rfl)
      · exact Or.inr h2

/-- Seed insertions carry no predecessor, so they preserve back links. -/
theorem foldl_seed_back (cols : List (List Point)) (col : List Point) :
    ∀ (d : BestPath), BackLinks cols d →
    BackLinks cols
      (col.foldl (fun d point => dictInsert d point ((0 : ℝ), none, (0 : ℝ))) d) := by
  induction col with
  | nil => intro d h; exact h
  | cons q rest ih =>
    intro d h
    rw [List.foldl_cons]
    apply ih
    intro p' s q' a hp'
    by_cases hpq : p' = q
    · subst hpq
      rw [dictInsert_self] at hp'
      simp at hp'
    · rw [dictInsert_other d q p' _ hpq] at hp'
      exact h p' s q' a hp'

/-- The seed dictionary records the first candidate column. -/
theorem seedDict_isSome (cols : List (List Point)) : DomUpTo cols (seedDict cols) 1 := by
  intro p hp
  unfold seedDict
  cases cols with
  | nil => exact absurd hp (by simp [flattenL])
  | cons c0 t =>
    have hp0 : p ∈ c0 := by simpa [flattenL] using hp
    rw [show (c0 :: t).take 1 = [c0] from rfl, List.foldl_cons, List.foldl_nil]
    exact foldl_seed_isSome c0 emptyBestPath p (Or.inr hp0)

/-- The seed dictionary has no predecessor links. -/
theorem seedDict_back (cols : List (List Point)) : BackLinks cols (seedDict cols) := by
  unfold seedDict
  cases cols with
  | nil =>
    intro p s q a hp
    rw [show (([] : List (List Point)).take 1) = [] from rfl, List.foldl_nil] at hp
    exact Option.noConfusion hp
  | cons c0 t =>
    rw [show (c0 :: t).take 1 = [c0] from rfl, List.foldl_cons, List.foldl_nil]
    apply foldl_seed_back
    intro p s q a hp
    exact Option.noConfusion hp

/-- Backtracking from a recorded candidate point of column `c` succeeds
given fuel at least `c + 2`, producing the accumulator followed by a chain
of candidate points with strictly decreasing `x`-coordinates. -/
theorem backtrack_ok (cols : List (List Point)) (d : BestPath)
    (hdom : DomUpTo cols d cols.length) (hback : BackLinks cols d) :
    ∀ (fuel : ℕ) (p : Point) (c : ℕ), p ∈ flattenL cols → p.x = (c : ℚ) →
    c + 1 < fuel → ∀ (acc : List Point),
    ∃ path, backtrack d fuel (some p) acc = .ok (acc ++ (p :: path)) ∧
      (∀ q ∈ p :: path, q ∈ flattenL cols ∧ ∃ cq : ℕ, q.x = (cq : ℚ)) ∧
      (p :: path).Chain' (fun a b => b.x < a.x) := by
  intro fuel
  induction fuel with
  | zero => intro p c _ _ h; omega
  | succ f ih =>
    intro p c hpmem hpx hfuel acc
    have hrec : (d p).isSome = true := by
      apply hdom
      rw [List.take_length]
      exact hpmem
    cases hd : d p with
    | none => rw [hd] at hrec; exact absurd hrec (by simp)
    | some r =>
      obtain ⟨s, prev, a⟩ := r
      cases prev with
      | none =>
        refine ⟨[], ?_, ?_, ?_⟩
        · show (match d p with
            | none => Except.error "KeyError"
            | some r => backtrack d f r.2.1 (acc ++ [p])) = .ok (acc ++ [p])
          rw [hd]
          cases f with
          | zero => omega
          | succ f2 => rfl
        · intro q hq
          rcases List.mem_cons.mp hq with rfl | hq2
          · exact ⟨hpmem, c, hpx⟩
          · exact absurd hq2 (List.not_mem_nil q)
        · exact List.chain'_singleton p
      | some q =>
        obtain ⟨hqmem, cq, cp, hqx, hpx2, hlt⟩ := hback p s q a hd
        have hcp : cp = c := by
          have hcast : (cp : ℚ) = (c : ℚ) := by rw [← hpx2, hpx]
          exact_mod_cast hcast
        subst hcp
        obtain ⟨path2, hbt, hmem2, hchain2⟩ := ih q cq hqmem hqx (by omega) (acc ++ [p])
        refine ⟨q :: path2, ?_, ?_, ?_⟩
        · show (match d p with
            | none => Except.error "KeyError"
            | some r => backtrack d f r.2.1 (acc ++ [p])) = .ok (acc ++ (p :: q :: path2))
          rw [hd]
          show backtrack d f (some q) (acc ++ [p]) = .ok (acc ++ (p :: q :: path2))
          rw [hbt, List.append_assoc]
          rfl
        · intro x hx
          rcases List.mem_cons.mp hx with rfl | hx2
          · exact ⟨hpmem, cp, hpx⟩
          · exact hmem2 x hx2
        · rw [List.chain'_cons]
          refine ⟨?_, hchain2⟩
          rw [hqx, hpx]
          exact_mod_cast hlt

/-- An in-range read succeeds and returns the list entry. -/
theorem pyGet_eq {α : Type} (l : List α) (i : ℤ) (dflt : α) (h0 : 0 ≤ i)
    (h1 : i < (l.length : ℤ)) : pyGet l i = .ok (l.getD i.toNat dflt) := by
  have hnn : ¬ i < 0 := by omega
  have hlt : i.toNat < l.length := by omega
  simp only [pyGet, if_neg hnn]
  rw [dif_pos ⟨h0, h1⟩, List.get_eq_getElem, List.getD_eq_getElem l dflt hlt]

/-- An in-range write succeeds and sets the list entry. -/
theorem pySet_eq {α : Type} (l : List α) (i : ℤ) (v : α) (h0 : 0 ≤ i)
    (h1 : i < (l.length : ℤ)) : pySet l i v = .ok (l.set i.toNat v) := by
  have hnn : ¬ i < 0 := by omega
  simp only [pySet, if_neg hnn]
  rw [if_pos ⟨h0, h1⟩]

/-- Reading back the written index. -/
theorem getD_set_self {α : Type} (l : List α) (n : ℕ) (v d : α) (h : n < l.length) :
    (l.set n v).getD n d = v := by
  rw [List.getD_eq_getElem _ d (by simpa using h)]
  exact List.getElem_set_self (by simpa using h)

/-- Reading an index other than the written one. -/
theorem getD_set_ne {α : Type} (l : List α) (m n : ℕ) (v d : α) (h : m ≠ n) :
    (l.set m v).getD n d = l.getD n d := by
  by_cases hn : n < l.length
  · rw [List.getD_eq_getElem _ d (by simpa using hn), List.getD_eq_getElem _ d hn]
    exact List.getElem_set_ne h _
  · rw [List.getD_eq_default _ d (by simpa using (Nat.le_of_not_lt hn)),
      List.getD_eq_default _ d (Nat.le_of_not_lt hn)]

/-- A fresh `NaN` array reads `NaN` everywhere. -/
theorem getD_replicate_none {α : Type} (n i : ℕ) :
    ((List.replicate n (none : Option α)).getD i none) = none := by
  by_cases h : i < n
  · rw [List.getD_eq_getElem _ _ (by simpa using h)]
    exact List.getElem_replicate _ (by simpa using h)
  · exact List.getD_eq_default _ _ (by simpa using Nat.le_of_not_lt h)

/-- Membership in an integer `range(a, b)`. -/
theorem mem_pyRangeInt (a b x : ℤ) : x ∈ pyRangeInt a b ↔ a ≤ x ∧ x < b := by
  unfold pyRangeInt
  simp only [List.mem_map, List.mem_range]
  constructor
  · rintro ⟨i, hi, rfl⟩
    omega
  · rintro ⟨h1, h2⟩
    exact ⟨(x - a).toNat, by omega, by omega⟩

/-- Left membership along a pointwise relation. -/
theorem forall₂_mem_left {α β : Type} {R : α → β → Prop} :
    ∀ {l : List α} {r : List β}, List.Forall₂ R l r → ∀ a ∈ l, ∃ b ∈ r, R a b := by
  intro l r h
  induction h with
  | nil => intro a ha; exact absurd ha (List.not_mem_nil a)
  | cons hab htail ih =>
    intro a ha
    rcases List.mem_cons.mp ha with rfl | ha2
    · exact ⟨_, by simp, hab⟩
    · rcases ih a ha2 with ⟨b, hb, hr⟩
      exact ⟨b, by simp [hb], hr⟩

/-- A list is pointwise related to its own image under a map. -/
theorem forall₂_map_self {α β : Type} (R : α → β → Prop) (f : α → β) :
    ∀ (l : List α), (∀ x ∈ l, R x (f x)) → List.Forall₂ R l (l.map f) := by
  intro l
  induction l with
  | nil => intro h; exact List.Forall₂.nil
  | cons a t ih =>
    intro h
    rw [List.map_cons]
    exact List.Forall₂.cons (h a (by simp)) (ih (fun x hx => h x (by simp [hx])))

/-- Interpolation between two candidate points of distinct natural columns
succeeds and yields one point per strictly intermediate column. -/
theorem interpolate_ok (fromP toP : Point) (cf ct : ℕ) (hf : fromP.x = (cf : ℚ))
    (ht : toP.x = (ct : ℚ)) (hlt : cf < ct) :
    ∃ ips, interpolate fromP toP = .ok ips ∧
      List.Forall₂ (fun (x : ℤ) (ip : Point) => ip.x = (x : ℚ) ∧ ip.index = x)
        (pyRangeInt ((cf : ℤ) + 1) ((ct : ℤ))) ips := by
  have hne : toP.x - fromP.x ≠ 0 := by
    rw [ht, hf]
    intro h
    have hc : (ct : ℚ) = (cf : ℚ) := by linarith
    have hc2 : ct = cf := by exact_mod_cast hc
    omega
  unfold interpolate
  rw [if_neg hne]
  refine ⟨_, rfl, ?_⟩
  have hidx : fromP.index + 1 = (cf : ℤ) + 1 := by
    rw [Point.index, hf, pyRound_natCast]
  have hidx2 : toP.index = (ct : ℤ) := by
    rw [Point.index, ht, pyRound_natCast]
  rw [hidx, hidx2]
  apply forall₂_map_self
  intro x hx
  exact ⟨rfl, pyRound_intCast x⟩

/-- Folding in-range writes succeeds; an entry is filled afterwards iff it
was filled before or one of the writes targets it. -/
theorem foldl_pySet_ok (len : ℕ) :
    ∀ (ips : List Point),
    (∀ ip ∈ ips, ∃ j : ℤ, ip.index = j ∧ 0 ≤ j ∧ j < (len : ℤ)) →
    ∀ (sig : List (Option ℚ)), sig.length = len →
    ∃ sig2, ips.foldlM (fun s ip => pySet s ip.index (some ip.y)) sig = .ok sig2 ∧
      sig2.length = len ∧
      ∀ i : ℕ, i < len → (sig2.getD i none ≠ none ↔
        (sig.getD i none ≠ none ∨ ∃ ip ∈ ips, ip.index = (i : ℤ))) := by
  intro ips
  induction ips with
  | nil =>
    intro hbound sig hlen
    refine ⟨sig, rfl, hlen, ?_⟩
    intro i hi
    simp
  | cons ip rest ih =>
    intro hbound sig hlen
    obtain ⟨j, hj, hj0, hjlt⟩ := hbound ip (by simp)
    have hset : pySet sig ip.index (some ip.y) = .ok (sig.set j.toNat (some ip.y)) := by
      rw [hj]
      exact pySet_eq sig j (some ip.y) hj0 (by omega)
    have hlen2 : (sig.set j.toNat (some ip.y)).length = len := by
      rw [List.length_set, hlen]
    obtain ⟨sig2, hfold, hlen3, hiff⟩ := ih (fun q hq => hbound q (by simp [hq]))
      (sig.set j.toNat (some ip.y)) hlen2
    refine ⟨sig2, ?_, hlen3, ?_⟩
    · rw [List.foldlM_cons, hset, exbind_ok]
      exact hfold
    · intro i hi
      rw [hiff i hi]
      by_cases hij : i = j.toNat
      · subst hij
        constructor
        · intro h2
          exact Or.inr ⟨ip, by simp, by rw [hj]; omega⟩
        · intro h2
          left
          rw [getD_set_self _ _ _ _ (by omega)]
          simp
      · constructor
        · rintro (h2 | ⟨q, hq, hqi⟩)
          · rw [getD_set_ne _ _ _ _ _ (fun he => hij he.symm)] at h2
            exact Or.inl h2
          · exact Or.inr ⟨q, List.mem_cons_of_mem _ hq, hqi⟩
        · rintro (h2 | ⟨q, hq, hqi⟩)
          · left
            rw [getD_set_ne _ _ _ _ _ (fun he => hij he.symm)]
            exact h2
          · rcases List.mem_cons.mp hq with rfl | hq2
            · exfalso
              rw [hj] at hqi
              omega
            · exact Or.inr ⟨q, hq2, hqi⟩

theorem exbind_pure {ε α β : Type} (a : α) (f : α → Except ε β) :
    ((pure a : Except ε α) >>= f) = f a := rfl

/-- The fill loop of `convertPointsToSignal` succeeds along a strictly
descending chain of natural-column points, keeps the length, and ends with
exactly the columns from the last point's column on filled. -/
theorem convertLoop_inv :
    ∀ (pts : List Point) (prior : Point) (cp : ℕ) (sig : List (Option ℚ)),
    prior.x = (cp : ℚ) → cp < sig.length →
    (∀ i : ℕ, i < sig.length → (sig.getD i none ≠ none ↔ cp ≤ i)) →
    (∀ q ∈ pts, ∃ cq : ℕ, q.x = (cq : ℚ)) →
    (prior :: pts).Chain' (fun a b => b.x < a.x) →
    ∃ (sig2 : List (Option ℚ)) (cl : ℕ),
      convertLoop prior sig pts = .ok sig2 ∧ sig2.length = sig.length ∧
      (pts.getLastD prior).x = (cl : ℚ) ∧ cl ≤ cp ∧
      (∀ i : ℕ, i < sig.length → (sig2.getD i none ≠ none ↔ cl ≤ i)) := by
  intro pts
  induction pts with
  | nil =>
    intro prior cp sig hpx hcp hinv hpts hchain
    exact ⟨sig, cp, rfl, rfl, hpx, le_refl cp, hinv⟩
  | cons point rest ih =>
    intro prior cp sig hpx hcp hinv hpts hchain
    obtain ⟨cq, hcqx⟩ := hpts point (by simp)
    have hlt : cq < cp := by
      have h0 : point.x < prior.x := (List.chain'_cons.mp hchain).1
      rw [hcqx, hpx] at h0
      exact_mod_cast h0
    have hidx : point.index = (cq : ℤ) := by rw [Point.index, hcqx, pyRound_natCast]
    have hprobe : pyGet sig (point.index + 1) = .ok (sig.getD (cq + 1) none) := by
      rw [hidx]
      have h := pyGet_eq sig ((cq : ℤ) + 1) none (by omega) (by omega)
      have h2 : ((cq : ℤ) + 1).toNat = cq + 1 := by omega
      rw [h2] at h
      exact h
    by_cases hcase : cp = cq + 1
    · -- the next column is already filled: no interpolation
      have hfill : sig.getD (cq + 1) none ≠ none := by
        rw [hinv (cq + 1) (by omega)]
        omega
      have hset : pySet sig point.index (some point.y) =
          .ok (sig.set cq (some point.y)) := by
        rw [hidx]
        have h := pySet_eq sig ((cq : ℤ)) (some point.y) (by omega) (by omega)
        simpa using h
      have hinv2 : ∀ i : ℕ, i < (sig.set cq (some point.y)).length →
          ((sig.set cq (some point.y)).getD i none ≠ none ↔ cq ≤ i) := by
        intro i hi
        rw [List.length_set] at hi
        by_cases hic : i = cq
        · subst hic
          rw [getD_set_self _ _ _ _ hi]
          simp
        · rw [getD_set_ne _ _ _ _ _ (fun he => hic he.symm), hinv i hi]
          omega
      obtain ⟨sig2, cl, hloop, hlen2, hlast, hcl, hinv3⟩ := ih point cq
        (sig.set cq (some point.y)) hcqx (by rw [List.length_set]; omega) hinv2
        (fun q hq => hpts q (by simp [hq])) hchain.tail
      refine ⟨sig2, cl, ?_, ?_, ?_, ?_, ?_⟩
      · simp only [convertLoop]
        rw [hprobe]
        simp only [exbind_ok]
        rw [if_neg hfill, exbind_pure, hset]
        simp only [exbind_ok]
        exact hloop
      · rw [hlen2, List.length_set]
      · rw [List.getLastD_cons]
        exact hlast
      · omega
      · intro i hi
        exact hinv3 i (by rw [List.length_set]; exact hi)
    · -- a gap: interpolate into it first
      have hgap : sig.getD (cq + 1) none = none := by
        by_contra hne
        exact absurd ((hinv (cq + 1) (by omega)).mp hne) (by omega)
      obtain ⟨ips, hinterp, hips⟩ := interpolate_ok point prior cq cp hcqx hpx hlt
      have hbound : ∀ ip ∈ ips, ∃ j : ℤ, ip.index = j ∧ 0 ≤ j ∧
          j < (sig.length : ℤ) := by
        intro ip hip
        obtain ⟨x, hx, hxip⟩ := forall₂_mem_right hips ip hip
        rw [mem_pyRangeInt] at hx
        exact ⟨x, hxip.2, by omega, by omega⟩
      obtain ⟨sigI, hfold, hlenI, hiffI⟩ := foldl_pySet_ok sig.length ips hbound sig rfl
      have hfilliff : ∀ i : ℕ, (∃ ip ∈ ips, ip.index = (i : ℤ)) ↔
          (cq + 1 ≤ i ∧ i < cp) := by
        intro i
        constructor
        · rintro ⟨ip, hip, hipi⟩
          obtain ⟨x, hx, hxip⟩ := forall₂_mem_right hips ip hip
          rw [mem_pyRangeInt] at hx
          rw [hxip.2] at hipi
          omega
        · rintro ⟨h1, h2⟩
          obtain ⟨ip, hip, hxip⟩ := forall₂_mem_left hips ((i : ℤ))
            (by rw [mem_pyRangeInt]; omega)
          exact ⟨ip, hip, hxip.2⟩
      have hinvI : ∀ i : ℕ, i < (sigI.set cq (some point.y)).length →
          ((sigI.set cq (some point.y)).getD i none ≠ none ↔ cq ≤ i) := by
        intro i hi
        rw [List.length_set, hlenI] at hi
        by_cases hic : i = cq
        · subst hic
          rw [getD_set_self _ _ _ _ (by rw [hlenI]; exact hi)]
          simp
        · rw [getD_set_ne _ _ _ _ _ (fun he => hic he.symm), hiffI i hi,
            hfilliff i, hinv i hi]
          omega
      have hsetI : pySet sigI point.index (some point.y) =
          .ok (sigI.set cq (some point.y)) := by
        rw [hidx]
        have hblt : ((cq : ℤ)) < (sigI.length : ℤ) := by rw [hlenI]; omega
        have h := pySet_eq sigI ((cq : ℤ)) (some point.y) (by omega) hblt
        simpa using h
      obtain ⟨sig2, cl, hloop, hlen2, hlast, hcl, hinv3⟩ := ih point cq
        (sigI.set cq (some point.y)) hcqx (by rw [List.length_set, hlenI]; omega)
        hinvI (fun q hq => hpts q (by simp [hq])) hchain.tail
      refine ⟨sig2, cl, ?_, ?_, ?_, ?_, ?_⟩
      · simp only [convertLoop]
        rw [hprobe]
        simp only [exbind_ok]
        rw [if_pos hgap, hinterp]
        simp only [exbind_ok]
        rw [hfold]
        simp only [exbind_ok]
        rw [hsetI]
        simp only [exbind_ok]
        exact hloop
      · rw [hlen2, List.length_set, hlenI]
      · rw [List.getLastD_cons]
        exact hlast
      · omega
      · intro i hi
        exact hinv3 i (by rw [List.length_set, hlenI]; exact hi)

/-- `convertPointsToSignal` with no width override, on a strictly
descending natural-column path: it succeeds, the length is the first
point's column plus one, and the `NaN` entries are exactly the columns
before the last point's column. -/
theorem convertPointsToSignal_ok (p0 : Point) (rest : List Point) (c0 : ℕ)
    (hp0 : p0.x = (c0 : ℚ))
    (hrest : ∀ q ∈ rest, ∃ cq : ℕ, q.x = (cq : ℚ))
    (hchain : (p0 :: rest).Chain' (fun a b => b.x < a.x)) :
    ∃ (sig : List (Option ℚ)) (cl : ℕ),
      convertPointsToSignal (p0 :: rest) none = .ok sig ∧
      sig.length = c0 + 1 ∧
      (rest.getLastD p0).x = (cl : ℚ) ∧ cl ≤ c0 ∧
      (∀ i : ℕ, i < sig.length → (sig.getD i none ≠ none ↔ cl ≤ i)) := by
  have hsz : p0.x + 1 = ((c0 + 1 : ℕ) : ℚ) := by rw [hp0]; push_cast; ring
  have hidx : p0.index = (c0 : ℤ) := by rw [Point.index, hp0, pyRound_natCast]
  have hset : pySet (List.replicate (c0 + 1) (none : Option ℚ)) p0.index
      (some p0.y) =
      .ok ((List.replicate (c0 + 1) (none : Option ℚ)).set c0 (some p0.y)) := by
    rw [hidx]
    have h := pySet_eq (List.replicate (c0 + 1) (none : Option ℚ)) ((c0 : ℤ))
      (some p0.y) (by omega) (by rw [List.length_replicate]; omega)
    simpa using h
  set sig0 := (List.replicate (c0 + 1) (none : Option ℚ)).set c0 (some p0.y)
    with hsig0
  have hlen0 : sig0.length = c0 + 1 := by
    rw [hsig0, List.length_set, List.length_replicate]
  have hinv0 : ∀ i : ℕ, i < sig0.length → (sig0.getD i none ≠ none ↔ c0 ≤ i) := by
    intro i hi
    rw [hlen0] at hi
    by_cases hic : i = c0
    · subst hic
      rw [hsig0, getD_set_self _ _ _ _ (by rw [List.length_replicate]; omega)]
      simp
    · rw [hsig0, getD_set_ne _ _ _ _ _ (fun he => hic he.symm), getD_replicate_none]
      constructor
      · intro h
        exact absurd rfl h
      · intro h
        exact absurd (by omega : i = c0) hic
  obtain ⟨sig2, cl, hloop, hlen2, hlast, hcl, hinv2⟩ :=
    convertLoop_inv rest p0 c0 sig0 hp0 (by omega) hinv0 hrest hchain
  refine ⟨sig2, cl, ?_, ?_, hlast, hcl, ?_⟩
  · simp only [convertPointsToSignal]
    rw [hsz, if_pos ⟨Rat.den_natCast _, by rw [Rat.num_natCast]; exact Int.natCast_nonneg _⟩]
    rw [Rat.num_natCast, Int.toNat_ofNat, hset]
    simp only [exbind_ok]
    exact hloop
  · rw [hlen2, hlen0]
  · intro i hi
    exact hinv2 i (by omega)

/-- The clamp used by the final window never goes below its limit. -/
theorem lowerClamp_nonneg (v : ℤ) : 0 ≤ lowerClamp v 0 := by
  unfold lowerClamp
  split <;> omega

/-- On any image with at least one candidate point, the Viterbi extraction
returns a signal array; its length is `e + 1` for `e` the column of the
ending point of the chosen path (a column of the image), and its `NaN`
entries are exactly the columns before the path's starting column `l`. -/
theorem extractSignal_ok_struct (img : List (List ℕ))
    (hne : flattenL (getPointLocations img) ≠ []) :
    ∃ (s : List (Option ℚ)) (e l : ℕ),
      extractSignal img = .ok (some s) ∧
      l ≤ e ∧ e < imgWidth img ∧ s.length = e + 1 ∧
      (∀ i : ℕ, i < s.length → (s.getD i none ≠ none ↔ l ≤ i)) := by
  have hlen : (getPointLocations img).length = imgWidth img :=
    getPointLocations_length img
  have hempty : ¬((flattenL (getPointLocations img)).isEmpty = true) :=
    fun h => hne (List.isEmpty_iff.mp h)
  -- the DP fold
  obtain ⟨dF, hfold, hdomF, hbackF⟩ := foldCols_ok img
    ((getPointLocations img).length - 1) 1 rfl (seedDict (getPointLocations img))
    (seedDict_isSome (getPointLocations img)) (seedDict_back (getPointLocations img))
  -- the final window over all columns
  have hWnn : (0 : ℤ) ≤ ((imgWidth img : ℕ) : ℤ) := by omega
  have hsubW : ∀ q ∈ getAdjacentLoop (getPointLocations img) ((imgWidth img : ℕ) : ℤ)
      ((lowerClamp (((imgWidth img : ℕ) : ℤ) - 20) 0) + 2).toNat
      (lowerClamp (((imgWidth img : ℕ) : ℤ) - 20) 0),
      q ∈ flattenL ((getPointLocations img).take (imgWidth img)) := by
    intro q hq
    have h := getAdjacentLoop_subset (getPointLocations img)
      (((imgWidth img : ℕ) : ℤ)) hWnn _ _ q hq
    simpa using h
  have hdomLoop : ∀ q ∈ getAdjacentLoop (getPointLocations img)
      ((imgWidth img : ℕ) : ℤ)
      ((lowerClamp (((imgWidth img : ℕ) : ℤ) - 20) 0) + 2).toNat
      (lowerClamp (((imgWidth img : ℕ) : ℤ) - 20) 0),
      (dF q).isSome = true := by
    intro q hq
    exact hdomF q (flattenL_take_mono _ (by omega) q (hsubW q hq))
  obtain ⟨out, hga, hrel⟩ := getAdjacent_ok (getPointLocations img) dF
    (((imgWidth img : ℕ) : ℤ)) 20 hdomLoop
  -- the window is nonempty
  have hWeq : ((imgWidth img : ℕ) : ℤ) = ((getPointLocations img).length : ℤ) := by
    rw [hlen]
  have hne2 : flattenL (pySlice (getPointLocations img) 0
      ((imgWidth img : ℕ) : ℤ)) ≠ [] := by
    rw [hWeq, pySlice_zero_length]
    exact hne
  have hlow : (0 : ℤ) ≤ lowerClamp (((imgWidth img : ℕ) : ℤ) - 20) 0 :=
    lowerClamp_nonneg _
  have hloopne := getAdjacentLoop_ne_nil (getPointLocations img)
    (((imgWidth img : ℕ) : ℤ)) hne2
    ((lowerClamp (((imgWidth img : ℕ) : ℤ) - 20) 0) + 2).toNat
    (lowerClamp (((imgWidth img : ℕ) : ℤ) - 20) 0) hlow (by omega)
  have houtne : out ≠ [] := by
    have hl := List.Forall₂.length_eq hrel
    have h1 : 0 < (getAdjacentLoop (getPointLocations img)
        ((imgWidth img : ℕ) : ℤ)
        ((lowerClamp (((imgWidth img : ℕ) : ℤ) - 20) 0) + 2).toNat
        (lowerClamp (((imgWidth img : ℕ) : ℤ) - 20) 0)).length :=
      List.length_pos.mpr hloopne
    exact List.length_pos.mp (by omega)
  -- the cheapest endpoint
  have hpairsne : out.map (fun t => (t.1, t.2.1)) ≠ [] := by
    intro h
    exact houtne (by simpa using h)
  obtain ⟨best, hmin, hbestmem⟩ := pyMinByFirst_ok (out.map (fun t => (t.1, t.2.1)))
    hpairsne
  obtain ⟨t, ht, heq⟩ := List.mem_map.mp hbestmem
  obtain ⟨q, hqloop, hqt⟩ := forall₂_mem_right hrel t ht
  have hqsome := hdomLoop q hqloop
  unfold adjacentEntry at hqt
  cases hdq : dF q with
  | none => rw [hdq] at hqsome; exact absurd hqsome (by simp)
  | some r =>
    rw [hdq] at hqt
    injection hqt with h
    subst h
    have hb2q : best.2 = q := by rw [← heq]
    have hqtake := hsubW q hqloop
    obtain ⟨e, heW, -, hqx⟩ := mem_take_getPointLocations img (imgWidth img) q hqtake
    have hqmem : q ∈ flattenL (getPointLocations img) :=
      flattenL_take_subset _ _ _ hqtake
    -- backtrack the optimal path
    obtain ⟨path, hbt, hmem, hchain⟩ := backtrack_ok (getPointLocations img) dF
      hdomF hbackF (imgWidth img + 1) q e hqmem hqx (by omega) []
    -- convert to a signal
    obtain ⟨sig, cl, hconv, hslen, hlast, hcl, hinv⟩ := convertPointsToSignal_ok q path e
      hqx (fun x hx => (hmem x (List.mem_cons_of_mem _ hx)).2) hchain
    refine ⟨sig, e, cl, ?_, hcl, heW, hslen, hinv⟩
    simp only [extractSignal]
    rw [if_neg hempty, hfold]
    simp only [exbind_ok]
    rw [hga]
    simp only [exbind_ok]
    rw [hmin]
    simp only [exbind_ok]
    rw [hb2q, hbt]
    simp only [exbind_ok, List.nil_append]
    rw [hconv]
    simp only [exbind_ok]

/-- Claim C10: for every binary image containing at least one candidate
point, `extractSignal` runs to completion without raising: the window
expansion, the DP-table assertion, the final minimization over a
non-empty candidate set, and the backtracking all succeed, and the call
returns a signal array. -/
theorem claim10_no_raise (img : List (List ℕ))
    (hne : flattenL (getPointLocations img) ≠ []) :
    ∃ s, extractSignal img = .ok (some s) := by
  obtain ⟨s, e, l, hok, -, -, -, -⟩ := extractSignal_ok_struct img hne
  exact ⟨s, hok⟩

/-- Claim C10 (witness): the 2×3 mask with one candidate point satisfies
the hypothesis, and the extraction indeed returns a signal. -/
theorem claim10_witness :
    flattenL (getPointLocations maskOnePoint) ≠ [] ∧
    ∃ s, extractSignal maskOnePoint = .ok (some s) :=
  ⟨by with_unfolding_all decide,
    claim10_no_raise maskOnePoint (by with_unfolding_all decide)⟩

/-- Claim C3 (counterexample): a 2×3 mask of width 3 whose only candidate
point lies in column 0 — the Viterbi extractor returns an array of
length 1, not `W = 3`. -/
theorem claim3_counterexample :
    extractSignal maskOnePoint = .ok (some [some 0]) ∧
    imgWidth maskOnePoint = 3 ∧
    ([some (0 : ℚ)] : List (Option ℚ)).length ≠ 3 := by
  refine ⟨?_, rfl, by decide⟩
  with_unfolding_all decide

/-- Claim C3 (amended): whenever the Viterbi extractor returns an array,
its length is `e + 1` where `e` is the column of the chosen path's ending
candidate point — a column of the mask, so the length is at most `W` but
in general not `W` — and the not-a-number entries are exactly the columns
before the path's starting column `l`. -/
theorem claim3_amended (img : List (List ℕ)) (out : List (Option ℚ))
    (h : extractSignal img = .ok (some out)) :
    ∃ e l : ℕ, l ≤ e ∧ e < imgWidth img ∧ out.length = e + 1 ∧
      (∀ i : ℕ, i < out.length → (out.getD i none = none ↔ i < l)) := by
  have hne : flattenL (getPointLocations img) ≠ [] := by
    intro hnil
    have hnone : extractSignal img = .ok none := by
      simp only [extractSignal]
      rw [if_pos (List.isEmpty_iff.mpr hnil)]
    rw [hnone] at h
    injection h with h2
    exact Option.noConfusion h2
  obtain ⟨s, e, l, hok, hle, hW, hlen, hinv⟩ := extractSignal_ok_struct img hne
  rw [hok] at h
  injection h with h2
  injection h2 with h3
  subst h3
  refine ⟨e, l, hle, hW, hlen, ?_⟩
  intro i hi
  have hiff := hinv i hi
  constructor
  · intro hn
    by_contra hge
    exact (hiff.mpr (by omega)) hn
  · intro hlt
    by_contra hn
    exact absurd (hiff.mp hn) (by omega)

/-- Claim C3 (witness to the amended claim): on the 2×3 mask the returned
array `[0.0]` has length `e + 1 = 1` for the ending column `e = 0`, and
no entry is `NaN` (the path starts at column 0). -/
theorem claim3_witness :
    extractSignal maskOnePoint = .ok (some [some 0]) ∧
    ∃ e l : ℕ, l ≤ e ∧ e < imgWidth maskOnePoint ∧
      ([some (0 : ℚ)] : List (Option ℚ)).length = e + 1 ∧
      (∀ i : ℕ, i < ([some (0 : ℚ)] : List (Option ℚ)).length →
        (([some (0 : ℚ)] : List (Option ℚ)).getD i none = none ↔ i < l)) := by
  have h : extractSignal maskOnePoint = .ok (some [some 0]) := by
    with_unfolding_all decide
  exact ⟨h, claim3_amended maskOnePoint [some 0] h⟩

end PaperECG
